import Mathlib

/-!
Verification of the email extraction and validation engine of the
Email_scrapping_chrome_extension repository.

JavaScript strings are modelled as lists of UTF-16 code units
(`JStr := List Nat`); all string primitives used by the source
(indexOf, substring, split, trim, toLowerCase, includes, regex tests)
are embedded as executable functions on that representation.
-/

namespace EmailScraper

/-- A JavaScript string: the sequence of its UTF-16 code units. -/
abbrev JStr := List Nat

/-- Conversion from a Lean string literal to the code-unit model
(all literals used here are ASCII/BMP, one unit per character). -/
def jstr (s : String) : JStr := s.data.map Char.toNat

/-- Code units that the ECMAScript WhiteSpace / LineTerminator productions
cover; used by String.prototype.trim and by the regex class backslash-s. -/
def wsCodes : List Nat :=
  [9, 10, 11, 12, 13, 32, 160, 5760, 8192, 8193, 8194, 8195, 8196, 8197,
   8198, 8199, 8200, 8201, 8202, 8232, 8233, 8239, 8287, 12288, 65279]

def jsIsWs (c : Nat) : Bool := wsCodes.contains c

/-- Per-unit lower-casing as done by toLowerCase on ASCII letters
(the source only ever compares ASCII content). -/
def jsToLowerC (c : Nat) : Nat := if 65 ≤ c ∧ c ≤ 90 then c + 32 else c

/-- JS String.prototype.toLowerCase. -/
def jsToLower (s : JStr) : JStr := s.map jsToLowerC

/-- JS String.prototype.trim: strip leading and trailing whitespace. -/
def jsTrim (s : JStr) : JStr :=
  ((s.dropWhile jsIsWs).reverse.dropWhile jsIsWs).reverse

/-- JS String.prototype.includes for a fixed search string. -/
def containsSub : JStr → JStr → Bool
  | [], sub => sub.isEmpty
  | c :: r, sub => sub.isPrefixOf (c :: r) || containsSub r sub

/-- JS String.prototype.indexOf for a single code unit, as an option
(none models the -1 result). -/
def idxOf? (c : Nat) : JStr → Option Nat
  | [] => none
  | a :: r => if a == c then some 0 else (idxOf? c r).map (· + 1)

/-- JS String.prototype.split on a single-character separator
(empty fields are kept, as in JS). -/
def splitOnSep (d : Nat) : JStr → List JStr
  | [] => [[]]
  | c :: r =>
    if c == d then [] :: splitOnSep d r
    else
      match splitOnSep d r with
      | [] => [[c]]
      | p :: ps => (c :: p) :: ps

/-- Digits 0-9 as code units. -/
def isDigit (c : Nat) : Bool := decide (48 ≤ c ∧ c ≤ 57)

/-- ASCII alphanumerics as code units. -/
def isAlnum (c : Nat) : Bool :=
  decide ((48 ≤ c ∧ c ≤ 57) ∨ (65 ≤ c ∧ c ≤ 90) ∨ (97 ≤ c ∧ c ≤ 122))

/-- The regex class backslash-w. -/
def isWordChar (c : Nat) : Bool := isAlnum c || c == 95

/-- Matches the regex fragment backslash-s-star followed by the literal
tail pat at the start of the input (the tails used never begin with a
whitespace unit, so greedy whitespace consumption is exact). -/
def wsStarThen (pat : JStr) : JStr → Bool
  | [] => pat.isEmpty
  | c :: r => if jsIsWs c then wsStarThen pat r else pat.isPrefixOf (c :: r)

/-- Tail of the on-handler pattern: after the first word character,
consume further word characters, then whitespace, then an equals sign. -/
def onWordTail : JStr → Bool
  | [] => false
  | c :: r => if isWordChar c then onWordTail r else wsStarThen [61] (c :: r)

/-- The on-handler regex viewed at one start position of an already
lower-cased string: literal on, one-or-more word chars, whitespace, =. -/
def onAt : JStr → Bool
  | 111 :: 110 :: c :: r => isWordChar c && onWordTail r
  | _ => false

/-- Whether the on-handler regex matches anywhere in the string. -/
def hasOnWsEq : JStr → Bool
  | [] => false
  | c :: r => onAt (c :: r) || hasOnWsEq r

/-- The data-URI-with-HTML regex viewed at one start position. -/
def dataAt (s : JStr) : Bool :=
  (jstr "data:").isPrefixOf s && wsStarThen (jstr "text/html") (s.drop 5)

/-- Whether the data-URI-with-HTML regex matches anywhere. -/
def hasDataHtml : JStr → Bool
  | [] => false
  | c :: r => dataAt (c :: r) || hasDataHtml r

/-- The expression-call regex viewed at one start position. -/
def exprAt (s : JStr) : Bool :=
  (jstr "expression").isPrefixOf s && wsStarThen [40] (s.drop 10)

/-- Whether the expression-call regex matches anywhere. -/
def hasExprParen : JStr → Bool
  | [] => false
  | c :: r => exprAt (c :: r) || hasExprParen r

/-- The suspiciousPatterns test of EmailExtractor.isValidEmail in
content.js: all six patterns carry the i flag, so testing them on the
lower-cased string is equivalent. -/
def isSuspicious (email : JStr) : Bool :=
  let low := jsToLower email
  containsSub low (jstr "<script") ||
  containsSub low (jstr "javascript:") ||
  hasOnWsEq low ||
  hasDataHtml low ||
  containsSub low (jstr "vbscript:") ||
  hasExprParen low

/-- EmailExtractor.isValidEmail from content.js (object-literal revision,
the validator the claims cite): each early return of the source is one
branch here.  64, 46 and 45 are the code units of the at sign, the dot
and the hyphen. -/
def isValidEmail (email : JStr) : Bool :=
  if email.isEmpty || decide (email.length > 254) then false
  else
    match idxOf? 64 email with
    | none => false
    | some atIndex =>
      if atIndex == 0 || atIndex == email.length - 1 then false
      else
        let localPart := email.take atIndex
        let domain := email.drop (atIndex + 1)
        if decide (localPart.length > 64) || localPart.length == 0 then false
        else if decide (domain.length > 253) || domain.length == 0 then false
        else if !(domain.contains 46) || domain.headD 0 == 46 ||
                domain.getLastD 0 == 46 then false
        else
          let domainParts := splitOnSep 46 domain
          let tld := domainParts.getLastD []
          if decide (tld.length < 2) || decide (tld.length > 6) then false
          else if isSuspicious email then false
          else if containsSub email [46, 46] || containsSub email [64, 64] ||
                  containsSub email [45, 45] then false
          else true

/-- Letters, digits and hyphen: the regex class inside a domain label. -/
def isLdh (c : Nat) : Bool := isAlnum c || c == 45

/-- Code units allowed by the local-part class of the scanning regex. -/
def isLocalChar (c : Nat) : Bool :=
  isAlnum c ||
  [46, 33, 35, 36, 37, 38, 39, 42, 43, 47, 61, 63, 94, 95, 96,
   123, 124, 125, 126, 45].contains c

/-- Length of the longest prefix of the given run that ends in an
alphanumeric unit (the greedy choice of the optional label tail). -/
def bestLen : JStr → Option Nat
  | [] => none
  | c :: r =>
    match bestLen r with
    | some n => some (n + 1)
    | none => if isAlnum c then some 1 else none

/-- Greedy match of one domain label of the scanning regex at the start
of the input: an alphanumeric, then optionally up to 61 letter-digit-
hyphen units ended by an alphanumeric.  Returns the label and the rest. -/
def matchLabel : JStr → Option (JStr × JStr)
  | [] => none
  | c :: rest =>
    if isAlnum c then
      let run := rest.takeWhile isLdh
      match bestLen (run.take 62) with
      | some t => some (c :: run.take t, rest.drop t)
      | none => some ([c], rest)
    else none

/-- Greedy match of the star-closure of dot-label groups of the scanning
regex: consumes as many dot-plus-label groups as possible, returning the
consumed units and the rest.  The first argument is fuel bounding the
number of groups; every group consumes at least two code units, so the
length of the input (supplied by matchDotLabels) is always enough fuel,
and the recursion stays structural. -/
def matchDotLabelsF : Nat → JStr → JStr × JStr
  | 0, s => ([], s)
  | Nat.succ fuel, s =>
    match s with
    | [] => ([], [])
    | c :: s2 =>
      if c = 46 then
        match matchLabel s2 with
        | some labr =>
          let p := matchDotLabelsF fuel labr.2
          (46 :: (labr.1 ++ p.1), p.2)
        | none => ([], c :: s2)
      else ([], c :: s2)

/-- matchDotLabelsF with its fuel instantiated to the always-sufficient
bound. -/
def matchDotLabels (s : JStr) : JStr × JStr := matchDotLabelsF s.length s

/-- One attempt of the scanning regex at the current position: maximal
nonempty run of local-part units, an at sign, one label, then greedy
dot-label groups.  Returns the whole match and the rest of the text. -/
def tryMatchAt (s : JStr) : Option (JStr × JStr) :=
  if (s.takeWhile isLocalChar).isEmpty then none
  else
    match s.dropWhile isLocalChar with
    | [] => none
    | c :: s2 =>
      if c = 64 then
        match matchLabel s2 with
        | none => none
        | some labr =>
          some (s.takeWhile isLocalChar ++ 64 ::
            (labr.1 ++ (matchDotLabels labr.2).1), (matchDotLabels labr.2).2)
      else none

/-- The g-flagged exec loop of the scanning regex over a text: repeated
leftmost matching, resuming after each match.  The first argument is a
fuel bound on the number of loop steps; every step consumes at least one
code unit of the remaining text, so the length of the text (supplied by
scanText) is always enough fuel, and the recursion stays structural. -/
def scanFromF : Nat → JStr → List JStr
  | 0, _ => []
  | Nat.succ fuel, s =>
    match s with
    | [] => []
    | c :: rest =>
      match tryMatchAt (c :: rest) with
      | some ma => ma.1 :: scanFromF fuel ma.2
      | none => scanFromF fuel rest

/-- The candidates the scanner produces on a text. -/
def scanText (t : JStr) : List JStr := scanFromF t.length t

/-- Code units that can occur in a scanner match: local-part units plus
the at sign (label units and the dot are also local-part units). -/
def isMatchChar (c : Nat) : Bool := isLocalChar c || c == 64

/-- Whether a string is one domain label of the scanning regex: an
alphanumeric, optionally followed by up to 61 letter-digit-hyphen units
whose last unit is alphanumeric. -/
def isLabel : JStr → Bool
  | [] => false
  | c :: rest =>
    isAlnum c &&
      (rest.isEmpty ||
        (rest.dropLast.all isLdh && decide (rest.dropLast.length ≤ 61) &&
          (match rest.getLast? with
           | some d => isAlnum d
           | none => false)))

/-- Whether a whole string is generated by the scanning regex grammar
(local-part units, an at sign, then one-or-more dot-separated labels).
Since neither side of the at sign may contain another at sign, the
decomposition at the first one is the only possible one. -/
def matchesGrammar (s : JStr) : Bool :=
  match idxOf? 64 s with
  | none => false
  | some i =>
    !(s.take i).isEmpty && (s.take i).all isLocalChar &&
      (splitOnSep 46 (s.drop (i + 1))).all isLabel

/-- The part of a string after its first at sign (the domain the
validator inspects); empty when there is no at sign. -/
def domainAfterAt (s : JStr) : JStr :=
  match idxOf? 64 s with
  | none => []
  | some i => s.drop (i + 1)


/-- Modelled from the spec: the extractFromText pipeline with the order
of operations the spec describes — each raw candidate is validated
first, and only a candidate that passed validation is lower-cased and
trimmed before deduplication.  This definition exists only to be
compared with extractLoop / extractFromText below, which follow the
source. -/
def specOrderLoop : List JStr → List JStr → List JStr
  | [], acc => acc
  | m :: ms, acc =>
    if isValidEmail m then
      let e := jsTrim (jsToLower m)
      if acc.contains e then specOrderLoop ms acc
      else specOrderLoop ms (acc ++ [e])
    else specOrderLoop ms acc

/-- Modelled from the spec: extractFromText with validation before
normalization (see specOrderLoop). -/
def extractFromTextSpecOrder (t : JStr) : List JStr :=
  if t.isEmpty then [] else specOrderLoop (scanText t) []

/-- Loop body of EmailExtractor.extractFromText in content.js: for each
regex match, lower-case and trim it, validate, and push when not yet
collected. -/
def extractLoop : List JStr → List JStr → List JStr
  | [], acc => acc
  | m :: ms, acc =>
    let e := jsTrim (jsToLower m)
    if isValidEmail e && !(acc.contains e) then extractLoop ms (acc ++ [e])
    else extractLoop ms acc

/-- EmailExtractor.extractFromText from content.js: empty or non-string
input short-circuits to an empty list (the non-string case is the other
constructor of TextVal below). -/
def extractFromText (t : JStr) : List JStr :=
  if t.isEmpty then [] else extractLoop (scanText t) []

/-- A value passed where the source checks typeof text !== a string:
either an actual string or any non-string value. -/
inductive TextVal where
  | str : JStr → TextVal
  | nonString : TextVal

/-- extractFromText as called on an arbitrary JS value: the typeof guard
of the source returns an empty list on non-strings. -/
def extractFromTextVal : TextVal → List JStr
  | .nonString => []
  | .str t => extractFromText t

/-- EmailExtractor.extractFromMailtoLinks from content.js, over the list
of href attribute values of the selected anchors: drop the mailto:
scheme, cut at the first question mark, lower-case, trim, validate. -/
def extractFromMailtoLinks (hrefs : List JStr) : List JStr :=
  hrefs.flatMap (fun href =>
    if href.isEmpty then []
    else
      let e := jsTrim (jsToLower ((href.drop 7).takeWhile (fun c => c != 63)))
      if isValidEmail e then [e] else [])

/-- EmailExtractor.extractFromDataAttributes from content.js, over the
effective data-email/data-contact/data-mail value of each selected
element (the getAttribute or-chain is resolved by the document view):
validate the raw value, then push it lower-cased and trimmed. -/
def extractFromDataAttributes (vals : List JStr) : List JStr :=
  vals.flatMap (fun v =>
    if !v.isEmpty && isValidEmail v then [jsTrim (jsToLower v)] else [])

/-- EmailExtractor.extractFromInputFields from content.js, over the
effective value/defaultValue/placeholder of each selected input. -/
def extractFromInputFields (vals : List JStr) : List JStr :=
  vals.flatMap (fun v =>
    if !v.isEmpty && isValidEmail v then [jsTrim (jsToLower v)] else [])

/-- EmailExtractor.extractFromMetaTags from content.js, over the content
attribute of each meta tag. -/
def extractFromMetaTags (vals : List JStr) : List JStr :=
  vals.flatMap (fun v =>
    if !v.isEmpty && isValidEmail v then [jsTrim (jsToLower v)] else [])

/-- A parsed JSON value as traversed by extractEmailsFromObject: strings
are candidates, arrays and objects are traversed in order (for-in visits
array indices and object keys in insertion order), all other primitives
contribute nothing. -/
inductive JsonV where
  | str : JStr → JsonV
  | arr : List JsonV → JsonV
  | obj : List (JStr × JsonV) → JsonV
  | prim : JsonV

mutual

/-- EmailExtractor.extractEmailsFromObject from content.js. -/
def extractEmailsFromObject : JsonV → List JStr
  | .str s => if isValidEmail s then [jsTrim (jsToLower s)] else []
  | .arr l => extractEmailsFromList l
  | .obj l => extractEmailsFromPairs l
  | .prim => []

def extractEmailsFromList : List JsonV → List JStr
  | [] => []
  | j :: r => extractEmailsFromObject j ++ extractEmailsFromList r

def extractEmailsFromPairs : List (JStr × JsonV) → List JStr
  | [] => []
  | kv :: r => extractEmailsFromObject kv.2 ++ extractEmailsFromPairs r

end

/-- EmailExtractor.extractFromStructuredData from content.js, over the
JSON-LD script blocks: none models a block whose text is empty or whose
JSON.parse throws — it is caught and skipped. -/
def extractFromStructuredData (blobs : List (Option JsonV)) : List JStr :=
  blobs.flatMap (fun b =>
    match b with
    | some j => extractEmailsFromObject j
    | none => [])

/-- One Set.add step (JS Set preserves insertion order). -/
def setAdd (acc : List JStr) (e : JStr) : List JStr :=
  if acc.contains e then acc else acc ++ [e]

/-- forEach of a list of emails into the Set. -/
def setAddAll (acc : List JStr) (l : List JStr) : List JStr :=
  l.foldl setAdd acc

/-- The exact falsePositives list of EmailExtractor.extractEmails in
content.js. -/
def falsePositives : List JStr :=
  [jstr "example@example.com", jstr "test@test.com", jstr "user@example.com",
   jstr "admin@example.com", jstr "info@example.com",
   jstr "contact@example.com", jstr "noreply@example.com",
   jstr "no-reply@example.com", jstr "sample@domain.com",
   jstr "demo@example.com", jstr "placeholder@email.com",
   jstr "user@domain.com"]

/-- The final filter predicate of EmailExtractor.extractEmails in
content.js. -/
def passesFinalFilter (email : JStr) : Bool :=
  !falsePositives.contains email &&
  decide (email.length < 100) &&
  !containsSub email (jstr "localhost") &&
  !containsSub email (jstr "127.0.0.1") &&
  !containsSub email (jstr "test.") &&
  !containsSub email (jstr "example.") &&
  !containsSub email (jstr "demo.")

/-- The per-document inputs of EmailExtractor.extractEmails: the text
aggregated by getAllTextContent and, per source kind, the attribute or
value strings the corresponding extractor reads from the DOM. -/
structure DocumentView where
  allText : JStr
  mailtoHrefs : List JStr
  dataAttrValues : List JStr
  inputValues : List JStr
  metaContents : List JStr
  structuredBlobs : List (Option JsonV)

/-- EmailExtractor.extractEmails from content.js: the six extractors feed
one Set in order, and the final filter drops placeholders, long entries
and test-ish fragments. -/
def extractEmails (doc : DocumentView) : List JStr :=
  let s :=
    setAddAll
      (setAddAll
        (setAddAll
          (setAddAll
            (setAddAll
              (setAddAll [] (extractFromText doc.allText))
              (extractFromMailtoLinks doc.mailtoHrefs))
            (extractFromDataAttributes doc.dataAttrValues))
          (extractFromInputFields doc.inputValues))
        (extractFromMetaTags doc.metaContents))
      (extractFromStructuredData doc.structuredBlobs)
  s.filter passesFinalFilter

/-- The same document with its structured-data blocks replaced (used to
state that a malformed block does not disturb the other sources). -/
def setBlobs (doc : DocumentView) (b : List (Option JsonV)) : DocumentView :=
  ⟨doc.allText, doc.mailtoHrefs, doc.dataAttrValues, doc.inputValues,
    doc.metaContents, b⟩

/-- The result cap applied by autoDetectEmails / extractEmailsFromPage in
the class revision of content.js: slice to the first 500 entries when
more were found. -/
def limitResults (emails : List JStr) : List JStr :=
  if decide (emails.length > 500) then emails.take 500 else emails

/-- JS String.prototype.indexOf of a greater-than sign viewed as: the
rest of the string after the first one, when present. -/
def findGt : JStr → Option JStr
  | [] => none
  | c :: r => if c = 62 then some r else findGt r

/-- The global replace of the tag regex (less-than, non-greater-than
units, greater-than) by the empty string, as used by utils.sanitizeEmails
in popup.js: scan left to right, on a less-than with a later greater-than
drop through that greater-than and continue after it, otherwise keep the
unit.  The first argument is fuel bounding the number of scan steps;
every step consumes at least one code unit, so the length of the input
(supplied by stripTags) is always enough fuel. -/
def stripTagsF : Nat → JStr → JStr
  | 0, s => s
  | Nat.succ fuel, s =>
    match s with
    | [] => []
    | c :: rest =>
      if c = 60 then
        match findGt rest with
        | some after => stripTagsF fuel after
        | none => c :: stripTagsF fuel rest
      else c :: stripTagsF fuel rest

/-- stripTagsF with its fuel instantiated to the always-sufficient
bound. -/
def stripTags (s : JStr) : JStr := stripTagsF s.length s

/-- Whether the string contains a greater-than sign (used to analyse the
tag-stripping replace). -/
def hasGt (s : JStr) : Bool := s.contains 62

/-- A string on which the tag regex has no match: every less-than sign
in it is not followed (anywhere later) by a greater-than sign.  The
output of stripTags always satisfies this, which is what makes the
replace idempotent. -/
def goodTail : JStr → Bool
  | [] => true
  | c :: r => if c = 60 then !hasGt r && goodTail r else goodTail r

/-- Units that are neither whitespace nor an at sign: the regex class of
utils.isValidEmail in popup.js. -/
def okCharP (c : Nat) : Bool := !jsIsWs c && c != 64

/-- utils.isValidEmail from popup.js: the anchored regex
caret, one-or-more non-space-non-at, at, one-or-more non-space-non-at,
dot, one-or-more non-space-non-at, dollar.  A string matches exactly when
its single at sign (the class excludes at, so the first at is the only
one and the test below forces no other) splits it into a nonempty local
part and a domain of such units containing a dot that is neither the
first nor the last domain unit. -/
def popupIsValidEmail (s : JStr) : Bool :=
  match idxOf? 64 s with
  | none => false
  | some i =>
    let L := s.take i
    let D := s.drop (i + 1)
    !L.isEmpty && L.all okCharP && D.all okCharP &&
      ((D.drop 1).dropLast.contains 46)

/-- One step of iterating a JS Set built by insertion: keep the first
occurrence of each element. -/
def dedupAcc (seen : List JStr) : List JStr → List JStr
  | [] => []
  | x :: r =>
    if seen.contains x then dedupAcc seen r
    else x :: dedupAcc (seen ++ [x]) r

/-- utils.removeDuplicates from popup.js: spread of a Set over the
lower-cased entries. -/
def removeDuplicates (emails : List JStr) : List JStr :=
  dedupAcc [] (emails.map jsToLower)

/-- The first four suspiciousPatterns of utils.sanitizeEmails in
popup.js, all i-flagged. -/
def isSuspicious4 (e : JStr) : Bool :=
  let low := jsToLower e
  containsSub low (jstr "<script") ||
  containsSub low (jstr "javascript:") ||
  hasOnWsEq low ||
  hasDataHtml low

/-- The filter-map-filter stage of utils.sanitizeEmails in popup.js:
drop falsy (empty) entries, trim, lower-case, strip tag-shaped runs, cut
to 254 units, then keep entries that are nonempty, at most 254 units,
not suspicious and accepted by utils.isValidEmail. -/
def sanitizeClean (emails : List JStr) : List JStr :=
  ((emails.filter (fun e => !e.isEmpty)).map
    (fun e => (stripTags (jsToLower (jsTrim e))).take 254)).filter
    (fun e => decide (e.length > 0) && decide (e.length ≤ 254) &&
      !isSuspicious4 e && popupIsValidEmail e)

/-- utils.sanitizeEmails from popup.js (the removeDupes parameter
defaults to true at the call sites the spec describes): clean, optionally
deduplicate case-insensitively, and cap at 1000 entries. -/
def sanitizeEmails (emails : List JStr) (removeDupes : Bool) : List JStr :=
  (if removeDupes then removeDuplicates (sanitizeClean emails)
   else sanitizeClean emails).take 1000


theorem bestLen_bounds {p : JStr} {t : Nat} (h : bestLen p = some t) :
    1 ≤ t ∧ t ≤ p.length := by
  induction p generalizing t with
  | nil => simp [bestLen] at h
  | cons c r ih =>
    unfold bestLen at h
    cases hb : bestLen r with
    | some n =>
      rw [hb] at h
      obtain ⟨h1, h2⟩ := ih hb
      simp only [Option.some.injEq] at h
      subst h
      simp only [List.length_cons]
      omega
    | none =>
      rw [hb] at h
      by_cases ha : isAlnum c = true
      · simp [ha] at h
        subst h
        simp
      · simp [ha] at h

theorem takeWhile_take {p : Nat → Bool} {l : JStr} {t : Nat}
    (h : t ≤ (l.takeWhile p).length) : (l.takeWhile p).take t = l.take t := by
  induction l generalizing t with
  | nil => simp
  | cons c r ih =>
    by_cases hc : p c = true
    · simp only [List.takeWhile_cons, hc, if_true] at h ⊢
      cases t with
      | zero => simp
      | succ t =>
        simp only [List.take_succ_cons, List.length_cons] at h ⊢
        rw [ih (by omega)]
    · simp only [List.takeWhile_cons, hc] at h
      simp at h
      subst h
      simp

theorem matchLabel_append {s lab r : JStr} (h : matchLabel s = some (lab, r)) :
    lab ++ r = s ∧ lab ≠ [] := by
  cases s with
  | nil => simp [matchLabel] at h
  | cons c rest =>
    unfold matchLabel at h
    by_cases ha : isAlnum c = true
    · simp only [ha, if_true] at h
      cases hb : bestLen ((rest.takeWhile isLdh).take 62) with
      | some t =>
        rw [hb] at h
        simp only [Option.some.injEq, Prod.mk.injEq] at h
        obtain ⟨h1, h2⟩ := h
        subst h1
        subst h2
        obtain ⟨hb1, hb2⟩ := bestLen_bounds hb
        have hlen : t ≤ (rest.takeWhile isLdh).length := by
          simp only [List.length_take] at hb2
          omega
        constructor
        · simp only [List.cons_append, List.cons.injEq, true_and]
          rw [takeWhile_take hlen]
          exact List.take_append_drop t rest
        · simp
      | none =>
        rw [hb] at h
        simp only [Option.some.injEq, Prod.mk.injEq] at h
        obtain ⟨h1, h2⟩ := h
        subst h1
        subst h2
        simp
    · simp [ha] at h

theorem matchLabel_lt {s lab r : JStr} (h : matchLabel s = some (lab, r)) :
    r.length < s.length := by
  obtain ⟨happ, hne⟩ := matchLabel_append h
  have : lab.length + r.length = s.length := by
    rw [← happ]; simp
  cases lab with
  | nil => exact absurd rfl hne
  | cons a b => simp only [List.length_cons] at this; omega

theorem matchDotLabelsF_append (fuel : Nat) (s : JStr) :
    (matchDotLabelsF fuel s).1 ++ (matchDotLabelsF fuel s).2 = s := by
  induction fuel generalizing s with
  | zero => simp [matchDotLabelsF]
  | succ fuel ih =>
    cases s with
    | nil => simp [matchDotLabelsF]
    | cons c s2 =>
      unfold matchDotLabelsF
      by_cases hc : c = 46
      · subst hc
        simp only [if_true]
        cases h2 : matchLabel s2 with
        | none => simp
        | some labr =>
          simp only [List.cons_append, List.append_assoc, List.cons.injEq,
            true_and]
          rw [ih labr.2]
          exact (matchLabel_append h2).1
      · simp [hc]

theorem matchDotLabels_append (s : JStr) :
    (matchDotLabels s).1 ++ (matchDotLabels s).2 = s :=
  matchDotLabelsF_append s.length s

theorem tryMatchAt_append {s m a : JStr} (h : tryMatchAt s = some (m, a)) :
    m ++ a = s ∧ m ≠ [] := by
  unfold tryMatchAt at h
  by_cases he : (s.takeWhile isLocalChar).isEmpty = true
  · simp [he] at h
  · simp only [he, Bool.false_eq_true, if_false] at h
    cases h1 : s.dropWhile isLocalChar with
    | nil => rw [h1] at h; simp at h
    | cons c s2 =>
      rw [h1] at h
      by_cases hc : c = 64
      · subst hc
        simp only [if_true] at h
        cases h2 : matchLabel s2 with
        | none => rw [h2] at h; simp at h
        | some labr =>
          rw [h2] at h
          simp only [Option.some.injEq, Prod.mk.injEq] at h
          obtain ⟨hm, ha⟩ := h
          subst hm
          subst ha
          constructor
          · have hlab := (matchLabel_append h2).1
            have hmdl := matchDotLabels_append labr.2
            calc s.takeWhile isLocalChar ++
                  64 :: (labr.1 ++ (matchDotLabels labr.2).1) ++
                  (matchDotLabels labr.2).2
                = s.takeWhile isLocalChar ++
                  64 :: (labr.1 ++ ((matchDotLabels labr.2).1 ++
                    (matchDotLabels labr.2).2)) := by
                  simp [List.append_assoc]
              _ = s.takeWhile isLocalChar ++ 64 :: (labr.1 ++ labr.2) := by
                  rw [hmdl]
              _ = s.takeWhile isLocalChar ++ 64 :: s2 := by rw [hlab]
              _ = s.takeWhile isLocalChar ++ s.dropWhile isLocalChar := by
                  rw [h1]
              _ = s := List.takeWhile_append_dropWhile isLocalChar s
          · intro hcon
            rw [List.append_eq_nil] at hcon
            simp at hcon
      · simp only [hc, if_false] at h
        exact Option.noConfusion h

theorem tryMatchAt_lt {s m a : JStr} (h : tryMatchAt s = some (m, a)) :
    a.length < s.length := by
  obtain ⟨happ, hne⟩ := tryMatchAt_append h
  have : m.length + a.length = s.length := by rw [← happ]; simp
  cases m with
  | nil => exact absurd rfl hne
  | cons x y => simp only [List.length_cons] at this; omega

example : scanText (jstr "mail a@b.co or C@d.io!") =
    [jstr "a@b.co", jstr "C@d.io"] := by decide
example : scanText (jstr "a@@b.com") = [] := by decide
example : scanText (jstr "x a@b x") = [jstr "a@b"] := by decide

example :
    extractEmails
      { allText := jstr "see a@b.co and A@B.CO", mailtoHrefs := [],
        dataAttrValues := [], inputValues := [], metaContents := [],
        structuredBlobs := [] } = [jstr "a@b.co"] := by decide

example :
    extractEmails
      { allText := [], mailtoHrefs := [jstr "mailto:TEST@Site.com?x=1"],
        dataAttrValues := [], inputValues := [], metaContents := [],
        structuredBlobs := [] } = [jstr "test@site.com"] := by decide

example :
    extractEmails
      { allText := [], mailtoHrefs := [], dataAttrValues := [jstr " @a.com"],
        inputValues := [], metaContents := [], structuredBlobs := [] } =
      [jstr "@a.com"] := by decide

example : sanitizeEmails [jstr " A@b.co ", jstr "a@B.CO", jstr "x"] true =
    [jstr "a@b.co"] := by decide

example : stripTags (jstr "a<b>c<de") = jstr "ac<de" := by decide

example : popupIsValidEmail (jstr "a@b.c") = true := by decide
example : popupIsValidEmail (jstr "a b@c.de") = false := by decide
example : popupIsValidEmail (jstr "a@b@c.de") = false := by decide
example : popupIsValidEmail (jstr "a@bc.") = false := by decide
example : popupIsValidEmail (jstr "a@.bc") = false := by decide
example : popupIsValidEmail (jstr "a@x.y.z") = true := by decide

example : isValidEmail (jstr "a@b.co") = true := by decide
example : isValidEmail (jstr "a@b@c.com") = true := by decide
example : isValidEmail (jstr "") = false := by decide
example : isValidEmail (jstr "@") = false := by decide
example : isValidEmail (jstr " @a.com") = true := by decide
example : isValidEmail (jstr "@a.com") = false := by decide
example : isValidEmail (jstr "a b@c.com") = true := by decide
example : isValidEmail (jstr "a..b@c.com") = false := by decide
example : isValidEmail (jstr "a@b") = false := by decide
example : isValidEmail (jstr "<script@b.co") = false := by decide
example : isValidEmail (jstr "onx =@b.co") = false := by decide

theorem jsToLowerC_idem (c : Nat) : jsToLowerC (jsToLowerC c) = jsToLowerC c := by
  unfold jsToLowerC
  split
  · rename_i h
    rw [if_neg (by omega)]
  · rfl

theorem jsToLowerC_eq_low {c p : Nat} (hp : p < 65) :
    jsToLowerC c = p ↔ c = p := by
  unfold jsToLowerC
  split
  · rename_i h
    constructor <;> intro h2 <;> omega
  · exact Iff.rfl

theorem mem_jsToLower_fixed {s : JStr} {a : Nat} (h : a ∈ jsToLower s) :
    jsToLowerC a = a := by
  unfold jsToLower at h
  rw [List.mem_map] at h
  obtain ⟨b, _, hb⟩ := h
  rw [← hb]
  exact jsToLowerC_idem b

theorem jsToLower_eq_self {s : JStr} (h : ∀ a ∈ s, jsToLowerC a = a) :
    jsToLower s = s := by
  induction s with
  | nil => rfl
  | cons c r ih =>
    show jsToLowerC c :: jsToLower r = c :: r
    rw [h c (List.mem_cons_self c r), ih (fun a ha => h a (List.mem_cons_of_mem c ha))]

theorem jsToLower_idem (s : JStr) : jsToLower (jsToLower s) = jsToLower s :=
  jsToLower_eq_self (fun _ ha => mem_jsToLower_fixed ha)

theorem jsIsWs_false_of_range {d : Nat} (h1 : 33 ≤ d) (h2 : d ≤ 126) :
    jsIsWs d = false := by
  cases hb : jsIsWs d with
  | false => rfl
  | true =>
    unfold jsIsWs wsCodes at hb
    rw [List.contains_eq_any_beq, List.any_eq_true] at hb
    obtain ⟨x, hx, hdx⟩ := hb
    rw [beq_iff_eq] at hdx
    subst hdx
    fin_cases hx <;> omega

theorem jsToLowerC_ws (c : Nat) : jsIsWs (jsToLowerC c) = jsIsWs c := by
  unfold jsToLowerC
  split
  · rename_i h
    rw [jsIsWs_false_of_range (by omega) (by omega),
      jsIsWs_false_of_range (by omega) (by omega)]
  · rfl

theorem dropWhile_head_not {p : Nat → Bool} {l : JStr} {c : Nat} {r : JStr}
    (h : l.dropWhile p = c :: r) : p c = false := by
  induction l with
  | nil => simp at h
  | cons a t ih =>
    rw [List.dropWhile_cons] at h
    by_cases hp : p a = true
    · rw [if_pos hp] at h
      exact ih h
    · rw [if_neg hp] at h
      injection h with h1 _
      rw [← h1]
      simpa using hp

theorem dropWhile_dropWhile (p : Nat → Bool) (l : JStr) :
    (l.dropWhile p).dropWhile p = l.dropWhile p := by
  cases h : l.dropWhile p with
  | nil => rfl
  | cons c r =>
    rw [List.dropWhile_cons, dropWhile_head_not h]
    simp

theorem getLast?_of_suffix {l₁ l₂ : JStr} (h : l₁ <:+ l₂) (hne : l₁ ≠ []) :
    l₁.getLast? = l₂.getLast? := by
  obtain ⟨t, ht⟩ := h
  rw [← ht, List.getLast?_append]
  cases hl : l₁.getLast? with
  | none =>
    cases l₁ with
    | nil => exact absurd rfl hne
    | cons a b => simp at hl
  | some d => rfl

theorem mem_jsTrim {s : JStr} {a : Nat} (h : a ∈ jsTrim s) : a ∈ s := by
  unfold jsTrim at h
  rw [List.mem_reverse] at h
  have h2 := (List.dropWhile_sublist jsIsWs).mem h
  rw [List.mem_reverse] at h2
  exact (List.dropWhile_sublist jsIsWs).mem h2

theorem dropWhile_eq_self_of_all {p : Nat → Bool} {l : JStr}
    (h : ∀ a ∈ l, p a = false) : l.dropWhile p = l := by
  cases l with
  | nil => rfl
  | cons c r =>
    rw [List.dropWhile_cons, h c (List.mem_cons_self c r)]
    simp

theorem jsTrim_eq_self {s : JStr} (h : ∀ a ∈ s, jsIsWs a = false) :
    jsTrim s = s := by
  unfold jsTrim
  rw [dropWhile_eq_self_of_all h]
  rw [dropWhile_eq_self_of_all (fun a ha => h a (List.mem_reverse.mp ha))]
  exact List.reverse_reverse s

theorem jsTrim_idem (s : JStr) : jsTrim (jsTrim s) = jsTrim s := by
  cases he : jsTrim s with
  | nil => rfl
  | cons c r =>
    unfold jsTrim at he ⊢
    rw [← he]
    set u := s.dropWhile jsIsWs with hu
    set v := u.reverse.dropWhile jsIsWs with hv
    have hvr : v.reverse = c :: r := he
    have hvne : v ≠ [] := by
      intro hc
      rw [hc] at hvr
      simp at hvr
    have hdv : v.reverse.dropWhile jsIsWs = v.reverse := by
      cases hw : v.reverse with
      | nil => rfl
      | cons a t =>
        have ha : jsIsWs a = false := by
          have hha : v.reverse.head? = some a := by rw [hw]; rfl
          rw [List.head?_reverse] at hha
          have hgl : v.getLast? = u.reverse.getLast? :=
            getLast?_of_suffix (List.dropWhile_suffix jsIsWs) hvne
          rw [hgl] at hha
          rw [← List.head?_reverse, List.reverse_reverse] at hha
          cases hu2 : u with
          | nil =>
            rw [hu2] at hha
            simp at hha
          | cons b t2 =>
            rw [hu2] at hha
            injection hha with hb
            rw [← hb]
            have hub : s.dropWhile jsIsWs = b :: t2 := by
              rw [← hu]
              exact hu2
            exact dropWhile_head_not hub
        rw [List.dropWhile_cons, ha]
        simp
    rw [hdv, List.reverse_reverse, hv]
    rw [dropWhile_dropWhile]

theorem beq_jsToLowerC_low {c p : Nat} (hp : p < 65) :
    (p == jsToLowerC c) = (p == c) := by
  rw [Bool.eq_iff_iff]
  simp only [beq_iff_eq]
  constructor
  · intro h2
    exact ((jsToLowerC_eq_low hp).mp h2.symm).symm
  · intro h2
    exact ((jsToLowerC_eq_low hp).mpr h2.symm).symm

theorem beq_jsToLowerC_low2 {c p : Nat} (hp : p < 65) :
    (jsToLowerC c == p) = (c == p) := by
  rw [Bool.eq_iff_iff]
  simp only [beq_iff_eq]
  exact jsToLowerC_eq_low hp

theorem isPrefixOf_jsToLower {pat : JStr} (hp : ∀ p ∈ pat, p < 65) :
    ∀ s : JStr, pat.isPrefixOf (jsToLower s) = pat.isPrefixOf s := by
  induction pat with
  | nil => intro s; cases s <;> rfl
  | cons p pr ih =>
    intro s
    cases s with
    | nil => rfl
    | cons c cr =>
      show ((p == jsToLowerC c) && pr.isPrefixOf (jsToLower cr)) =
        ((p == c) && pr.isPrefixOf cr)
      rw [beq_jsToLowerC_low (hp p (List.mem_cons_self p pr)),
        ih (fun q hq => hp q (List.mem_cons_of_mem p hq)) cr]

theorem containsSub_jsToLower {pat : JStr} (hp : ∀ p ∈ pat, p < 65)
    (s : JStr) : containsSub (jsToLower s) pat = containsSub s pat := by
  induction s with
  | nil => rfl
  | cons c r ih =>
    show containsSub (jsToLowerC c :: jsToLower r) pat = _
    unfold containsSub
    have hpre : pat.isPrefixOf (jsToLowerC c :: jsToLower r) =
        pat.isPrefixOf (c :: r) := isPrefixOf_jsToLower hp (c :: r)
    rw [hpre, ih]

theorem idxOf?_jsToLower (s : JStr) :
    idxOf? 64 (jsToLower s) = idxOf? 64 s := by
  induction s with
  | nil => rfl
  | cons c r ih =>
    show idxOf? 64 (jsToLowerC c :: jsToLower r) = _
    unfold idxOf?
    rw [beq_jsToLowerC_low2 (by omega), ih]

theorem lower_length (s : JStr) : (jsToLower s).length = s.length :=
  List.length_map s jsToLowerC

theorem lower_isEmpty (s : JStr) : (jsToLower s).isEmpty = s.isEmpty := by
  cases s <;> rfl

theorem lower_take (s : JStr) (n : Nat) :
    (jsToLower s).take n = jsToLower (s.take n) :=
  (List.map_take jsToLowerC s n).symm

theorem lower_drop (s : JStr) (n : Nat) :
    (jsToLower s).drop n = jsToLower (s.drop n) :=
  (List.map_drop jsToLowerC s n).symm

theorem lower_contains_low {p : Nat} (hp : p < 65) (s : JStr) :
    (jsToLower s).contains p = s.contains p := by
  induction s with
  | nil => rfl
  | cons c r ih =>
    show (jsToLowerC c :: jsToLower r).contains p = _
    simp only [List.contains_cons]
    rw [beq_jsToLowerC_low hp, ih]

theorem lower_headD46 (s : JStr) :
    ((jsToLower s).headD 0 == 46) = (s.headD 0 == 46) := by
  cases s with
  | nil => rfl
  | cons c r =>
    show (jsToLowerC c == 46) = (c == 46)
    exact beq_jsToLowerC_low2 (by omega)

theorem lower_getLastD46 (s : JStr) :
    ((jsToLower s).getLastD 0 == 46) = (s.getLastD 0 == 46) := by
  rw [List.getLastD_eq_getLast?, List.getLastD_eq_getLast?]
  show ((List.map jsToLowerC s).getLast?.getD 0 == 46) = _
  rw [List.getLast?_map]
  cases s.getLast? with
  | none => rfl
  | some d =>
    show (jsToLowerC d == 46) = (d == 46)
    exact beq_jsToLowerC_low2 (by omega)

theorem splitOnSep_jsToLower (s : JStr) :
    splitOnSep 46 (jsToLower s) = (splitOnSep 46 s).map jsToLower := by
  induction s with
  | nil => rfl
  | cons c r ih =>
    show splitOnSep 46 (jsToLowerC c :: jsToLower r) = _
    unfold splitOnSep
    rw [beq_jsToLowerC_low2 (by omega), ih]
    by_cases hc : (c == 46) = true
    · rw [hc]
      simp [jsToLower]
    · rw [Bool.eq_false_iff.mpr hc]
      simp only [Bool.false_eq_true, if_false]
      cases hsp : splitOnSep 46 r with
      | nil => simp [jsToLower]
      | cons p ps => simp [jsToLower]

theorem lower_tld_length (s : JStr) :
    ((splitOnSep 46 (jsToLower s)).getLastD []).length =
      ((splitOnSep 46 s).getLastD []).length := by
  rw [splitOnSep_jsToLower, List.getLastD_eq_getLast?, List.getLastD_eq_getLast?,
    List.getLast?_map]
  cases (splitOnSep 46 s).getLast? with
  | none => rfl
  | some d => exact lower_length d

theorem isSuspicious_jsToLower (s : JStr) :
    isSuspicious (jsToLower s) = isSuspicious s := by
  unfold isSuspicious
  rw [jsToLower_idem]

theorem isValidEmail_jsToLower (s : JStr) :
    isValidEmail (jsToLower s) = isValidEmail s := by
  unfold isValidEmail
  rw [idxOf?_jsToLower, lower_isEmpty, lower_length]
  cases h : idxOf? 64 s with
  | none => rfl
  | some i =>
    simp only [lower_length, lower_take, lower_drop,
      lower_contains_low (show (46 : Nat) < 65 by omega),
      lower_headD46, lower_getLastD46, lower_tld_length,
      isSuspicious_jsToLower,
      containsSub_jsToLower (show ∀ p ∈ ([46, 46] : JStr), p < 65 by decide),
      containsSub_jsToLower (show ∀ p ∈ ([64, 64] : JStr), p < 65 by decide),
      containsSub_jsToLower (show ∀ p ∈ ([45, 45] : JStr), p < 65 by decide)]

theorem isLocalChar_range {c : Nat} (h : isLocalChar c = true) :
    33 ≤ c ∧ c ≤ 126 := by
  unfold isLocalChar at h
  rw [Bool.or_eq_true] at h
  cases h with
  | inl h =>
    unfold isAlnum at h
    rw [decide_eq_true_iff] at h
    omega
  | inr h =>
    rw [List.contains_eq_any_beq, List.any_eq_true] at h
    obtain ⟨x, hx, hcx⟩ := h
    rw [beq_iff_eq] at hcx
    subst hcx
    fin_cases hx <;> omega

theorem isLdh_isLocalChar {c : Nat} (h : isLdh c = true) :
    isLocalChar c = true := by
  unfold isLdh at h
  rw [Bool.or_eq_true] at h
  cases h with
  | inl h =>
    unfold isLocalChar
    rw [h]
    rfl
  | inr h =>
    rw [beq_iff_eq] at h
    subst h
    decide

theorem isAlnum_isLocalChar {c : Nat} (h : isAlnum c = true) :
    isLocalChar c = true := by
  unfold isLocalChar
  rw [h]
  rfl

theorem matchLabel_chars {s lab r : JStr} (h : matchLabel s = some (lab, r)) :
    ∀ a ∈ lab, isLocalChar a = true := by
  cases s with
  | nil => simp [matchLabel] at h
  | cons c rest =>
    unfold matchLabel at h
    by_cases ha : isAlnum c = true
    · simp only [ha, if_true] at h
      cases hb : bestLen ((rest.takeWhile isLdh).take 62) with
      | some t =>
        rw [hb] at h
        simp only [Option.some.injEq, Prod.mk.injEq] at h
        obtain ⟨h1, _⟩ := h
        subst h1
        intro a hma
        rw [List.mem_cons] at hma
        cases hma with
        | inl h2 =>
          subst h2
          exact isAlnum_isLocalChar ha
        | inr h2 =>
          have h3 := List.mem_of_mem_take h2
          exact isLdh_isLocalChar (List.mem_takeWhile_imp h3)
      | none =>
        rw [hb] at h
        simp only [Option.some.injEq, Prod.mk.injEq] at h
        obtain ⟨h1, _⟩ := h
        subst h1
        intro a hma
        rw [List.mem_singleton] at hma
        subst hma
        exact isAlnum_isLocalChar ha
    · simp [ha] at h

theorem matchDotLabelsF_chars (fuel : Nat) (s : JStr) :
    ∀ a ∈ (matchDotLabelsF fuel s).1, isLocalChar a = true := by
  induction fuel generalizing s with
  | zero => intro a ha; simp [matchDotLabelsF] at ha
  | succ fuel ih =>
    cases s with
    | nil => intro a ha; simp [matchDotLabelsF] at ha
    | cons c s2 =>
      unfold matchDotLabelsF
      by_cases hc : c = 46
      · subst hc
        simp only [if_true]
        cases h2 : matchLabel s2 with
        | none => intro a ha; simp at ha
        | some labr =>
          obtain ⟨lab, r2⟩ := labr
          intro a ha
          simp only [List.mem_cons, List.mem_append] at ha
          rcases ha with h3 | h3 | h3
          · subst h3
            decide
          · exact matchLabel_chars h2 a h3
          · exact ih r2 a h3
      · simp only [hc, if_false]
        intro a ha
        simp at ha

theorem tryMatchAt_chars {s m a : JStr} (h : tryMatchAt s = some (m, a)) :
    ∀ x ∈ m, isMatchChar x = true := by
  unfold tryMatchAt at h
  by_cases he : (s.takeWhile isLocalChar).isEmpty = true
  · simp [he] at h
  · simp only [he, Bool.false_eq_true, if_false] at h
    cases h1 : s.dropWhile isLocalChar with
    | nil => rw [h1] at h; simp at h
    | cons c s2 =>
      rw [h1] at h
      by_cases hc : c = 64
      · subst hc
        simp only [if_true] at h
        cases h2 : matchLabel s2 with
        | none => rw [h2] at h; simp at h
        | some labr =>
          obtain ⟨lab, r2⟩ := labr
          rw [h2] at h
          simp only [Option.some.injEq, Prod.mk.injEq] at h
          obtain ⟨hm, _⟩ := h
          subst hm
          intro x hx
          simp only [List.mem_append, List.mem_cons] at hx
          rcases hx with h3 | h3 | h3 | h3
          · have hl := List.mem_takeWhile_imp h3
            unfold isMatchChar
            rw [hl]
            rfl
          · subst h3
            decide
          · unfold isMatchChar
            rw [matchLabel_chars h2 x h3]
            rfl
          · unfold isMatchChar
            rw [matchDotLabelsF_chars r2.length r2 x h3]
            rfl
      · simp only [hc, if_false] at h
        exact Option.noConfusion h

theorem scanFromF_chars {fuel : Nat} {s m : JStr} (h : m ∈ scanFromF fuel s) :
    ∀ x ∈ m, isMatchChar x = true := by
  induction fuel generalizing s with
  | zero => simp [scanFromF] at h
  | succ fuel ih =>
    cases s with
    | nil => simp [scanFromF] at h
    | cons c rest =>
      cases ht : tryMatchAt (c :: rest) with
      | some ma =>
        obtain ⟨m0, a0⟩ := ma
        rw [show scanFromF (fuel + 1) (c :: rest) = m0 :: scanFromF fuel a0 by
          rw [scanFromF, ht]] at h
        rw [List.mem_cons] at h
        cases h with
        | inl h2 =>
          subst h2
          exact tryMatchAt_chars ht
        | inr h2 => exact ih h2
      | none =>
        rw [show scanFromF (fuel + 1) (c :: rest) = scanFromF fuel rest by
          rw [scanFromF, ht]] at h
        exact ih h

theorem scanFromF_infix {fuel : Nat} {s m : JStr} (h : m ∈ scanFromF fuel s) :
    m <:+: s := by
  induction fuel generalizing s with
  | zero => simp [scanFromF] at h
  | succ fuel ih =>
    cases s with
    | nil => simp [scanFromF] at h
    | cons c rest =>
      cases ht : tryMatchAt (c :: rest) with
      | some ma =>
        obtain ⟨m0, a0⟩ := ma
        rw [show scanFromF (fuel + 1) (c :: rest) = m0 :: scanFromF fuel a0 by
          rw [scanFromF, ht]] at h
        rw [List.mem_cons] at h
        cases h with
        | inl h2 =>
          subst h2
          obtain ⟨happ, _⟩ := tryMatchAt_append ht
          exact ⟨[], a0, by simpa using happ⟩
        | inr h2 =>
          obtain ⟨t, u, htu⟩ := ih h2
          obtain ⟨happ, _⟩ := tryMatchAt_append ht
          exact ⟨m0 ++ t, u, by rw [← happ, ← htu]; simp⟩
      | none =>
        rw [show scanFromF (fuel + 1) (c :: rest) = scanFromF fuel rest by
          rw [scanFromF, ht]] at h
        obtain ⟨t, u, htu⟩ := ih h
        exact ⟨c :: t, u, by rw [← htu]; simp⟩

theorem scanText_infix {t m : JStr} (h : m ∈ scanText t) : m <:+: t :=
  scanFromF_infix h

theorem isMatchChar_not_ws {c : Nat} (h : isMatchChar c = true) :
    jsIsWs c = false := by
  unfold isMatchChar at h
  rw [Bool.or_eq_true] at h
  cases h with
  | inl h =>
    obtain ⟨h1, h2⟩ := isLocalChar_range h
    exact jsIsWs_false_of_range h1 h2
  | inr h =>
    rw [beq_iff_eq] at h
    subst h
    decide

theorem scan_trim_lower {t m : JStr} (h : m ∈ scanText t) :
    jsTrim (jsToLower m) = jsToLower m := by
  apply jsTrim_eq_self
  intro a ha
  unfold jsToLower at ha
  rw [List.mem_map] at ha
  obtain ⟨b, hb, hba⟩ := ha
  rw [← hba, jsToLowerC_ws]
  exact isMatchChar_not_ws (scanFromF_chars h b hb)

theorem scan_valid_comm {t m : JStr} (h : m ∈ scanText t) :
    isValidEmail (jsTrim (jsToLower m)) = isValidEmail m := by
  rw [scan_trim_lower h, isValidEmail_jsToLower]

theorem extractLoop_eq_specOrderLoop {ms : List JStr}
    (hpt : ∀ m ∈ ms, isValidEmail (jsTrim (jsToLower m)) = isValidEmail m) :
    ∀ acc, extractLoop ms acc = specOrderLoop ms acc := by
  induction ms with
  | nil => intro acc; rfl
  | cons m ms ih =>
    intro acc
    have hm := hpt m (List.mem_cons_self m ms)
    have hrest : ∀ x ∈ ms, isValidEmail (jsTrim (jsToLower x)) = isValidEmail x :=
      fun x hx => hpt x (List.mem_cons_of_mem m hx)
    unfold extractLoop specOrderLoop
    simp only [hm]
    by_cases hv : isValidEmail m = true
    · by_cases hc : acc.contains (jsTrim (jsToLower m)) = true
      · simp [hv, hc, ih hrest]
      · simp [hv, hc, ih hrest]
    · simp [hv, ih hrest]

/-- Claim C7: scanning is case-preserving — every candidate the scanner
produces is a verbatim substring of the text — and the extraction result
equals that of the pipeline that validates each raw candidate first and
lower-cases it only afterwards (the source lower-cases before validating,
but the validator is case-insensitive, so the two pipelines coincide on
every text). -/
theorem scan_case_preserving_and_lower_after_validation (t : JStr) :
    (∀ m ∈ scanText t, m <:+: t) ∧
      extractFromText t = extractFromTextSpecOrder t := by
  constructor
  · intro m hm
    exact scanText_infix hm
  · unfold extractFromText extractFromTextSpecOrder
    by_cases he : t.isEmpty = true
    · rw [if_pos he, if_pos he]
    · rw [if_neg he, if_neg he]
      exact extractLoop_eq_specOrderLoop
        (fun m hm => scan_valid_comm hm) []

/-- Witness for C7 at a concrete text: the mixed-case candidate is kept
verbatim by the scanner and the two pipeline orders agree. -/
theorem scan_case_preserving_and_lower_after_validation_witness :
    (jstr "A@b.co") <:+: (jstr "x A@b.co y") ∧
      extractFromText (jstr "x A@b.co y") =
        extractFromTextSpecOrder (jstr "x A@b.co y") :=
  ⟨(scan_case_preserving_and_lower_after_validation (jstr "x A@b.co y")).1
      (jstr "A@b.co") (by decide),
    (scan_case_preserving_and_lower_after_validation (jstr "x A@b.co y")).2⟩

theorem isValidEmail_elim {s : JStr} (h : isValidEmail s = true) :
    ∃ i, idxOf? 64 s = some i ∧ i ≠ 0 ∧ i ≠ s.length - 1 ∧
      (s.drop (i + 1)).contains 46 = true ∧
      containsSub s [64, 64] = false := by
  unfold isValidEmail at h
  dsimp only at h
  split at h
  · exact absurd h (by simp)
  · split at h
    · exact absurd h (by simp)
    · rename_i atIndex heq
      split at h
      · exact absurd h (by simp)
      · rename_i h2
        split at h
        · exact absurd h (by simp)
        · rename_i h3
          split at h
          · exact absurd h (by simp)
          · rename_i h4
            split at h
            · exact absurd h (by simp)
            · rename_i h5
              split at h
              · exact absurd h (by simp)
              · rename_i h6
                split at h
                · exact absurd h (by simp)
                · rename_i h7
                  split at h
                  · exact absurd h (by simp)
                  · rename_i h8
                    refine ⟨atIndex, heq, ?_, ?_, ?_, ?_⟩
                    · intro hc
                      subst hc
                      simp at h2
                    · intro hc
                      exact h2 (by simp [hc])
                    · simp only [Bool.or_eq_true, not_or, Bool.not_eq_true,
                        Bool.not_eq_false] at h5
                      obtain ⟨⟨ha, _⟩, _⟩ := h5
                      simpa using ha
                    · simp only [Bool.or_eq_true, not_or,
                        Bool.not_eq_true] at h8
                      obtain ⟨⟨_, hb⟩, _⟩ := h8
                      exact hb

/-- Claim C4: the validator is a total boolean function on strings; in
particular it returns a boolean on every input, and on the empty string
and on the string consisting of a single at sign it returns false rather
than raising. -/
theorem isValidEmail_total :
    (∀ s : JStr, isValidEmail s = true ∨ isValidEmail s = false) ∧
      isValidEmail [] = false ∧ isValidEmail [64] = false := by
  refine ⟨fun s => ?_, by decide, by decide⟩
  cases h : isValidEmail s
  · right; rfl
  · left; rfl

/-- Claim C5 counterexample: the string a@b@c.com contains two at signs,
yet the validator accepts it — only the first at sign's position and the
adjacent-pair test are checked, so the exactly-one-at claim fails. -/
theorem isValidEmail_two_ats_accepted :
    isValidEmail (jstr "a@b@c.com") = true ∧
      (jstr "a@b@c.com").count 64 = 2 := by decide

/-- Claim C5 amended: the validator accepts only strings that contain an
at sign whose first occurrence is neither at position 0 nor at the last
position and that contain no adjacent pair of at signs; strings with
further, non-adjacent at signs (such as a@b@c.com) can still be
accepted. -/
theorem isValidEmail_first_at_structure {s : JStr}
    (h : isValidEmail s = true) :
    ∃ i, idxOf? 64 s = some i ∧ i ≠ 0 ∧ i ≠ s.length - 1 ∧
      containsSub s [64, 64] = false := by
  obtain ⟨i, h1, h2, h3, _, h5⟩ := isValidEmail_elim h
  exact ⟨i, h1, h2, h3, h5⟩

/-- Witness for the amended C5 at a concrete accepted input. -/
theorem isValidEmail_first_at_structure_witness :
    isValidEmail (jstr "a@b.co") = true ∧
      ∃ i, idxOf? 64 (jstr "a@b.co") = some i ∧ i ≠ 0 ∧
        i ≠ (jstr "a@b.co").length - 1 ∧
        containsSub (jstr "a@b.co") [64, 64] = false :=
  ⟨by decide, isValidEmail_first_at_structure (by decide)⟩

/-- Claim C10: the validator rejects no string merely for containing
units outside the scanner's alphabet — the string a b@c.com contains a
space (code unit 32), which the scanning grammar can never produce, yet
isValidEmail accepts it. -/
theorem isValidEmail_accepts_space :
    isValidEmail (jstr "a b@c.com") = true ∧
      (jstr "a b@c.com").contains 32 = true := by decide

theorem bestLen_last {p : JStr} {t : Nat} (h : bestLen p = some t) :
    ∃ d, (p.take t).getLast? = some d ∧ isAlnum d = true := by
  induction p generalizing t with
  | nil => simp [bestLen] at h
  | cons c r ih =>
    unfold bestLen at h
    cases hb : bestLen r with
    | some n =>
      rw [hb] at h
      simp only [Option.some.injEq] at h
      subst h
      obtain ⟨d, hd, ha⟩ := ih hb
      refine ⟨d, ?_, ha⟩
      rw [List.take_succ_cons]
      have hn : 1 ≤ n := (bestLen_bounds hb).1
      cases htr : r.take n with
      | nil =>
        rw [htr] at hd
        simp at hd
      | cons x y =>
        rw [htr] at hd
        rw [List.getLast?_cons_cons]
        exact hd
    | none =>
      rw [hb] at h
      by_cases hc : isAlnum c = true
      · simp only [hc, if_true, Option.some.injEq] at h
        subst h
        exact ⟨c, by simp, hc⟩
      · simp [hc] at h

theorem matchLabel_isLabel {s lab r : JStr}
    (h : matchLabel s = some (lab, r)) : isLabel lab = true := by
  cases s with
  | nil => simp [matchLabel] at h
  | cons c rest =>
    unfold matchLabel at h
    by_cases ha : isAlnum c = true
    · simp only [ha, if_true] at h
      cases hb : bestLen ((rest.takeWhile isLdh).take 62) with
      | some t =>
        rw [hb] at h
        simp only [Option.some.injEq, Prod.mk.injEq] at h
        obtain ⟨h1, _⟩ := h
        subst h1
        obtain ⟨hb1, hb2⟩ := bestLen_bounds hb
        have ht62 : t ≤ 62 := by
          simp only [List.length_take] at hb2
          omega
        have hlen : t ≤ (rest.takeWhile isLdh).length := by
          simp only [List.length_take] at hb2
          omega
        have hXlen : ((rest.takeWhile isLdh).take t).length = t := by
          simp only [List.length_take]
          omega
        obtain ⟨d, hd, hda⟩ := bestLen_last hb
        have hXd : ((rest.takeWhile isLdh).take t).getLast? = some d := by
          have : ((rest.takeWhile isLdh).take 62).take t =
              (rest.takeWhile isLdh).take t := by
            rw [List.take_take]
            congr 1
            omega
          rw [← this]
          exact hd
        simp only [isLabel]
        rw [ha]
        cases hX : (rest.takeWhile isLdh).take t with
        | nil =>
          rw [hX] at hXlen
          simp at hXlen
          omega
        | cons x y =>
          simp only [Bool.true_and, List.isEmpty_cons, Bool.false_or]
          have hall : (x :: y).dropLast.all isLdh = true := by
            rw [List.all_eq_true]
            intro z hz
            have hz2 := List.mem_of_mem_dropLast hz
            rw [← hX] at hz2
            exact List.mem_takeWhile_imp (List.mem_of_mem_take hz2)
          have hlen2 : (x :: y).dropLast.length ≤ 61 := by
            rw [List.length_dropLast, ← hX, hXlen]
            omega
          rw [hall, decide_eq_true hlen2]
          rw [hX] at hXd
          rw [hXd]
          simp [hda]
      | none =>
        rw [hb] at h
        simp only [Option.some.injEq, Prod.mk.injEq] at h
        obtain ⟨h1, _⟩ := h
        subst h1
        simp [isLabel, ha]
    · simp [ha] at h

theorem matchLabel_nodot {s lab r : JStr}
    (h : matchLabel s = some (lab, r)) : ∀ x ∈ lab, x ≠ 46 := by
  cases s with
  | nil => simp [matchLabel] at h
  | cons c rest =>
    unfold matchLabel at h
    by_cases ha : isAlnum c = true
    · simp only [ha, if_true] at h
      cases hb : bestLen ((rest.takeWhile isLdh).take 62) with
      | some t =>
        rw [hb] at h
        simp only [Option.some.injEq, Prod.mk.injEq] at h
        obtain ⟨h1, _⟩ := h
        subst h1
        intro x hx
        rw [List.mem_cons] at hx
        cases hx with
        | inl h2 =>
          subst h2
          intro hc
          rw [hc] at ha
          exact absurd ha (by decide)
        | inr h2 =>
          have h3 := List.mem_takeWhile_imp (List.mem_of_mem_take h2)
          intro hc
          rw [hc] at h3
          exact absurd h3 (by decide)
      | none =>
        rw [hb] at h
        simp only [Option.some.injEq, Prod.mk.injEq] at h
        obtain ⟨h1, _⟩ := h
        subst h1
        intro x hx
        rw [List.mem_singleton] at hx
        subst hx
        intro hc
        rw [hc] at ha
        exact absurd ha (by decide)
    · simp [ha] at h

theorem splitOnSep_nodot {d : Nat} {a : JStr} (h : ∀ x ∈ a, x ≠ d) :
    splitOnSep d a = [a] := by
  induction a with
  | nil => rfl
  | cons c r ih =>
    unfold splitOnSep
    rw [beq_eq_false_iff_ne.mpr (h c (List.mem_cons_self c r))]
    simp only [Bool.false_eq_true, if_false]
    rw [ih (fun x hx => h x (List.mem_cons_of_mem c hx))]

theorem splitOnSep_append {d : Nat} {a b : JStr} (h : ∀ x ∈ a, x ≠ d) :
    splitOnSep d (a ++ d :: b) = a :: splitOnSep d b := by
  induction a with
  | nil =>
    show splitOnSep d (d :: b) = [] :: splitOnSep d b
    conv_lhs => unfold splitOnSep
    simp
  | cons c r ih =>
    show splitOnSep d (c :: (r ++ d :: b)) = (c :: r) :: splitOnSep d b
    conv_lhs => unfold splitOnSep
    rw [beq_eq_false_iff_ne.mpr (h c (List.mem_cons_self c r))]
    simp only [Bool.false_eq_true, if_false]
    rw [ih (fun x hx => h x (List.mem_cons_of_mem c hx))]

theorem matchDotLabelsF_succ_some {fuel : Nat} {s2 lab2 r2 : JStr}
    (h2 : matchLabel s2 = some (lab2, r2)) :
    matchDotLabelsF (fuel + 1) (46 :: s2) =
      (46 :: (lab2 ++ (matchDotLabelsF fuel r2).1),
        (matchDotLabelsF fuel r2).2) := by
  conv_lhs => unfold matchDotLabelsF
  simp [h2]

theorem matchDotLabelsF_succ_none {fuel : Nat} {s2 : JStr}
    (h2 : matchLabel s2 = none) :
    matchDotLabelsF (fuel + 1) (46 :: s2) = ([], 46 :: s2) := by
  conv_lhs => unfold matchDotLabelsF
  simp [h2]

theorem matchDotLabelsF_succ_notdot {fuel c : Nat} {s2 : JStr}
    (hc : c ≠ 46) :
    matchDotLabelsF (fuel + 1) (c :: s2) = ([], c :: s2) := by
  conv_lhs => unfold matchDotLabelsF
  simp [hc]

theorem matchDotLabelsF_labels (fuel : Nat) (s : JStr) :
    ∀ lab, (∀ x ∈ lab, x ≠ 46) → isLabel lab = true →
      (splitOnSep 46 (lab ++ (matchDotLabelsF fuel s).1)).all isLabel =
        true := by
  induction fuel generalizing s with
  | zero =>
    intro lab hnd hl
    show (splitOnSep 46 (lab ++ [])).all isLabel = true
    rw [List.append_nil, splitOnSep_nodot hnd]
    simp [hl]
  | succ fuel ih =>
    intro lab hnd hl
    cases s with
    | nil =>
      show (splitOnSep 46 (lab ++ [])).all isLabel = true
      rw [List.append_nil, splitOnSep_nodot hnd]
      simp [hl]
    | cons c s2 =>
      by_cases hc : c = 46
      · subst hc
        cases h2 : matchLabel s2 with
        | none =>
          rw [matchDotLabelsF_succ_none h2]
          show (splitOnSep 46 (lab ++ [])).all isLabel = true
          rw [List.append_nil, splitOnSep_nodot hnd]
          simp [hl]
        | some labr =>
          obtain ⟨lab2, r2⟩ := labr
          rw [matchDotLabelsF_succ_some h2]
          show (splitOnSep 46
            (lab ++ 46 :: (lab2 ++ (matchDotLabelsF fuel r2).1))).all
              isLabel = true
          rw [splitOnSep_append hnd, List.all_cons, hl]
          rw [ih r2 lab2 (matchLabel_nodot h2) (matchLabel_isLabel h2)]
          rfl
      · rw [matchDotLabelsF_succ_notdot hc]
        show (splitOnSep 46 (lab ++ [])).all isLabel = true
        rw [List.append_nil, splitOnSep_nodot hnd]
        simp [hl]

theorem idxOf?_append_at {L D : JStr} (h : ∀ x ∈ L, x ≠ 64) :
    idxOf? 64 (L ++ 64 :: D) = some L.length := by
  induction L with
  | nil =>
    show idxOf? 64 (64 :: D) = some 0
    unfold idxOf?
    simp
  | cons c r ih =>
    show idxOf? 64 (c :: (r ++ 64 :: D)) = some (r.length + 1)
    unfold idxOf?
    rw [beq_eq_false_iff_ne.mpr (h c (List.mem_cons_self c r))]
    simp only [Bool.false_eq_true, if_false]
    rw [ih (fun x hx => h x (List.mem_cons_of_mem c hx))]
    rfl

theorem tryMatchAt_grammar {s m a : JStr} (h : tryMatchAt s = some (m, a)) :
    matchesGrammar m = true := by
  unfold tryMatchAt at h
  by_cases he : (s.takeWhile isLocalChar).isEmpty = true
  · simp [he] at h
  · simp only [he, Bool.false_eq_true, if_false] at h
    cases h1 : s.dropWhile isLocalChar with
    | nil => rw [h1] at h; simp at h
    | cons c s2 =>
      rw [h1] at h
      by_cases hc : c = 64
      · subst hc
        simp only [if_true] at h
        cases h2 : matchLabel s2 with
        | none => rw [h2] at h; simp at h
        | some labr =>
          obtain ⟨lab, r2⟩ := labr
          rw [h2] at h
          simp only [Option.some.injEq, Prod.mk.injEq] at h
          obtain ⟨hm, _⟩ := h
          subst hm
          have hLloc : ∀ x ∈ s.takeWhile isLocalChar, isLocalChar x = true :=
            fun x hx => List.mem_takeWhile_imp hx
          have hL64 : ∀ x ∈ s.takeWhile isLocalChar, x ≠ 64 := by
            intro x hx hcx
            have := hLloc x hx
            rw [hcx] at this
            exact absurd this (by decide)
          unfold matchesGrammar
          rw [idxOf?_append_at hL64]
          dsimp only
          rw [List.take_left]
          have hdrop : (s.takeWhile isLocalChar ++ 64 ::
              (lab ++ (matchDotLabels r2).1)).drop
                ((s.takeWhile isLocalChar).length + 1) =
              lab ++ (matchDotLabels r2).1 := by
            have : s.takeWhile isLocalChar ++ 64 ::
                (lab ++ (matchDotLabels r2).1) =
                (s.takeWhile isLocalChar ++ [64]) ++
                  (lab ++ (matchDotLabels r2).1) := by simp
            rw [this]
            have hlen : (s.takeWhile isLocalChar).length + 1 =
                (s.takeWhile isLocalChar ++ [64]).length := by simp
            rw [hlen, List.drop_left]
          rw [hdrop]
          simp only [Bool.and_eq_true]
          refine ⟨⟨?_, ?_⟩, ?_⟩
          · rw [Bool.eq_false_iff.mpr he]
            rfl
          · rw [List.all_eq_true]
            exact hLloc
          · unfold matchDotLabels
            exact matchDotLabelsF_labels r2.length r2 lab
              (matchLabel_nodot h2) (matchLabel_isLabel h2)
      · simp only [hc, if_false] at h
        exact Option.noConfusion h

theorem scanFromF_grammar {fuel : Nat} {s m : JStr}
    (h : m ∈ scanFromF fuel s) : matchesGrammar m = true := by
  induction fuel generalizing s with
  | zero => simp [scanFromF] at h
  | succ fuel ih =>
    cases s with
    | nil => simp [scanFromF] at h
    | cons c rest =>
      cases ht : tryMatchAt (c :: rest) with
      | some ma =>
        obtain ⟨m0, a0⟩ := ma
        rw [show scanFromF (fuel + 1) (c :: rest) = m0 :: scanFromF fuel a0 by
          rw [scanFromF, ht]] at h
        rw [List.mem_cons] at h
        cases h with
        | inl h2 =>
          subst h2
          exact tryMatchAt_grammar ht
        | inr h2 => exact ih h2
      | none =>
        rw [show scanFromF (fuel + 1) (c :: rest) = scanFromF fuel rest by
          rw [scanFromF, ht]] at h
        exact ih h

/-- Claim C6 counterexample: the scanning grammar matches the string a@b
— the dot-label group of the regex is starred (zero-or-more), so a
candidate whose part after the at sign contains no dot is produced by
the grammar itself, and the scanner indeed emits it. -/
theorem grammar_allows_dotless_domain :
    matchesGrammar (jstr "a@b") = true ∧
      scanText (jstr "a@b") = [jstr "a@b"] ∧
      (domainAfterAt (jstr "a@b")).contains 46 = false := by decide

/-- Claim C6 amended: the grammar guarantees at least ONE domain label,
not two — every candidate the scanner emits matches the grammar, but a
dot in the domain is not required by the grammar itself; the
at-least-one-dot requirement is enforced by the validator, which accepts
only strings whose part after the first at sign contains a dot. -/
theorem scanner_grammar_and_validator_dot :
    (∀ t m : JStr, m ∈ scanText t → matchesGrammar m = true) ∧
      (∀ s : JStr, isValidEmail s = true →
        (domainAfterAt s).contains 46 = true) := by
  constructor
  · intro t m hm
    exact scanFromF_grammar hm
  · intro s hv
    obtain ⟨i, h1, _, _, h4, _⟩ := isValidEmail_elim hv
    unfold domainAfterAt
    rw [h1]
    exact h4

/-- Witness for the amended C6 at concrete inputs. -/
theorem scanner_grammar_and_validator_dot_witness :
    matchesGrammar (jstr "a@b") = true ∧
      (domainAfterAt (jstr "a@b.co")).contains 46 = true :=
  ⟨scanner_grammar_and_validator_dot.1 (jstr "a@b") (jstr "a@b") (by decide),
    scanner_grammar_and_validator_dot.2 (jstr "a@b.co") (by decide)⟩

theorem mem_setAdd {acc : List JStr} {x e : JStr} (h : e ∈ setAdd acc x) :
    e ∈ acc ∨ e = x := by
  unfold setAdd at h
  by_cases hc : acc.contains x = true
  · rw [if_pos hc] at h
    exact Or.inl h
  · rw [if_neg hc] at h
    rw [List.mem_append] at h
    cases h with
    | inl h2 => exact Or.inl h2
    | inr h2 =>
      rw [List.mem_singleton] at h2
      exact Or.inr h2

theorem mem_setAddAll {l : List JStr} :
    ∀ {acc : List JStr} {e : JStr}, e ∈ setAddAll acc l → e ∈ acc ∨ e ∈ l := by
  induction l with
  | nil =>
    intro acc e h
    exact Or.inl h
  | cons x r ih =>
    intro acc e h
    show e ∈ acc ∨ e ∈ x :: r
    unfold setAddAll at h
    rw [List.foldl_cons] at h
    have h2 := ih h
    cases h2 with
    | inl h3 =>
      cases mem_setAdd h3 with
      | inl h4 => exact Or.inl h4
      | inr h4 =>
        subst h4
        exact Or.inr (List.mem_cons_self e r)
    | inr h3 => exact Or.inr (List.mem_cons_of_mem x h3)

theorem norm_fixed {m e : JStr} (he : e = jsTrim (jsToLower m)) :
    e = jsTrim (jsToLower e) := by
  have hlf : jsToLower e = e := by
    apply jsToLower_eq_self
    intro a ha
    rw [he] at ha
    exact mem_jsToLower_fixed (mem_jsTrim ha)
  rw [hlf, he, jsTrim_idem]

theorem mem_extractLoop {ms : List JStr} :
    ∀ {acc : List JStr} {e : JStr}, e ∈ extractLoop ms acc →
      e ∈ acc ∨ ∃ m ∈ ms, e = jsTrim (jsToLower m) ∧
        isValidEmail e = true := by
  induction ms with
  | nil =>
    intro acc e h
    exact Or.inl h
  | cons m ms ih =>
    intro acc e h
    unfold extractLoop at h
    by_cases hc : (isValidEmail (jsTrim (jsToLower m)) &&
        !(acc.contains (jsTrim (jsToLower m)))) = true
    · rw [if_pos hc] at h
      rw [Bool.and_eq_true] at hc
      cases ih h with
      | inl h2 =>
        rw [List.mem_append] at h2
        cases h2 with
        | inl h3 => exact Or.inl h3
        | inr h3 =>
          rw [List.mem_singleton] at h3
          subst h3
          exact Or.inr ⟨m, List.mem_cons_self m ms, rfl, hc.1⟩
      | inr h2 =>
        obtain ⟨m2, hm2, he2, hv2⟩ := h2
        exact Or.inr ⟨m2, List.mem_cons_of_mem m hm2, he2, hv2⟩
    · rw [if_neg hc] at h
      cases ih h with
      | inl h2 => exact Or.inl h2
      | inr h2 =>
        obtain ⟨m2, hm2, he2, hv2⟩ := h2
        exact Or.inr ⟨m2, List.mem_cons_of_mem m hm2, he2, hv2⟩

theorem mem_extractFromText {t e : JStr} (h : e ∈ extractFromText t) :
    ∃ x, isValidEmail x = true ∧ e = jsTrim (jsToLower x) := by
  unfold extractFromText at h
  by_cases ht : t.isEmpty = true
  · rw [if_pos ht] at h
    simp at h
  · rw [if_neg ht] at h
    cases mem_extractLoop h with
    | inl h2 => simp at h2
    | inr h2 =>
      obtain ⟨m, _, he2, hv2⟩ := h2
      refine ⟨e, hv2, norm_fixed he2⟩

theorem mem_extractFromMailtoLinks {hrefs : List JStr} {e : JStr}
    (h : e ∈ extractFromMailtoLinks hrefs) :
    ∃ x, isValidEmail x = true ∧ e = jsTrim (jsToLower x) := by
  unfold extractFromMailtoLinks at h
  rw [List.mem_flatMap] at h
  obtain ⟨href, _, he⟩ := h
  by_cases h1 : href.isEmpty = true
  · rw [if_pos h1] at he
    simp at he
  · rw [if_neg h1] at he
    by_cases h2 : isValidEmail
        (jsTrim (jsToLower ((href.drop 7).takeWhile (fun c => c != 63)))) =
          true
    · rw [if_pos h2] at he
      rw [List.mem_singleton] at he
      subst he
      refine ⟨jsTrim (jsToLower ((href.drop 7).takeWhile (fun c => c != 63))),
        h2, ?_⟩
      exact norm_fixed rfl
    · rw [if_neg h2] at he
      simp at he

theorem mem_attrExtract {vals : List JStr} {e : JStr}
    (h : e ∈ vals.flatMap (fun v =>
      if !v.isEmpty && isValidEmail v then [jsTrim (jsToLower v)] else [])) :
    ∃ x, isValidEmail x = true ∧ e = jsTrim (jsToLower x) := by
  rw [List.mem_flatMap] at h
  obtain ⟨v, _, he⟩ := h
  by_cases h1 : (!v.isEmpty && isValidEmail v) = true
  · rw [if_pos h1] at he
    rw [List.mem_singleton] at he
    subst he
    rw [Bool.and_eq_true] at h1
    exact ⟨v, h1.2, rfl⟩
  · rw [if_neg h1] at he
    simp at he

mutual

theorem mem_extractEmailsFromObject {j : JsonV} {e : JStr}
    (h : e ∈ extractEmailsFromObject j) :
    ∃ x, isValidEmail x = true ∧ e = jsTrim (jsToLower x) := by
  cases j with
  | str s =>
    unfold extractEmailsFromObject at h
    by_cases hv : isValidEmail s = true
    · rw [if_pos hv] at h
      rw [List.mem_singleton] at h
      subst h
      exact ⟨s, hv, rfl⟩
    · rw [if_neg hv] at h
      simp at h
  | arr l => exact mem_extractEmailsFromList h
  | obj l => exact mem_extractEmailsFromPairs h
  | prim =>
    unfold extractEmailsFromObject at h
    simp at h

theorem mem_extractEmailsFromList {l : List JsonV} {e : JStr}
    (h : e ∈ extractEmailsFromList l) :
    ∃ x, isValidEmail x = true ∧ e = jsTrim (jsToLower x) := by
  cases l with
  | nil =>
    unfold extractEmailsFromList at h
    simp at h
  | cons j r =>
    unfold extractEmailsFromList at h
    rw [List.mem_append] at h
    cases h with
    | inl h2 => exact mem_extractEmailsFromObject h2
    | inr h2 => exact mem_extractEmailsFromList h2

theorem mem_extractEmailsFromPairs {l : List (JStr × JsonV)} {e : JStr}
    (h : e ∈ extractEmailsFromPairs l) :
    ∃ x, isValidEmail x = true ∧ e = jsTrim (jsToLower x) := by
  cases l with
  | nil =>
    unfold extractEmailsFromPairs at h
    simp at h
  | cons kv r =>
    unfold extractEmailsFromPairs at h
    rw [List.mem_append] at h
    cases h with
    | inl h2 => exact mem_extractEmailsFromObject h2
    | inr h2 => exact mem_extractEmailsFromPairs h2

end

theorem mem_extractFromStructuredData {blobs : List (Option JsonV)} {e : JStr}
    (h : e ∈ extractFromStructuredData blobs) :
    ∃ x, isValidEmail x = true ∧ e = jsTrim (jsToLower x) := by
  unfold extractFromStructuredData at h
  rw [List.mem_flatMap] at h
  obtain ⟨b, _, he⟩ := h
  cases b with
  | some j => exact mem_extractEmailsFromObject he
  | none => simp at he

/-- Claim C3 counterexample: a data attribute whose value carries a
leading space is validated raw (where the at sign is not at position 0)
but stored trimmed, so the returned ResultSet contains an entry the
validator rejects. -/
theorem extract_entry_fails_validator :
    extractEmails
      { allText := [], mailtoHrefs := [],
        dataAttrValues := [jstr " @a.com"], inputValues := [],
        metaContents := [], structuredBlobs := [] } = [jstr "@a.com"] ∧
      isValidEmail (jstr "@a.com") = false := by decide

/-- Claim C3 amended: every entry of the returned list is the trimmed,
lower-cased form of some string accepted by isValid; entries from the
body-text and mailto sources are themselves accepted, but sources that
validate before normalizing (data attributes, inputs, meta tags,
structured data) can yield entries that no longer pass isValid after
trimming. -/
theorem extractEmails_entries_normalized_valid {doc : DocumentView}
    {e : JStr} (h : e ∈ extractEmails doc) :
    ∃ x, isValidEmail x = true ∧ e = jsTrim (jsToLower x) := by
  unfold extractEmails at h
  dsimp only at h
  rw [List.mem_filter] at h
  obtain ⟨hm, _⟩ := h
  rcases mem_setAddAll hm with h1 | h1
  swap
  · exact mem_extractFromStructuredData h1
  rcases mem_setAddAll h1 with h2 | h2
  swap
  · exact mem_attrExtract h2
  rcases mem_setAddAll h2 with h3 | h3
  swap
  · exact mem_attrExtract h3
  rcases mem_setAddAll h3 with h4 | h4
  swap
  · exact mem_attrExtract h4
  rcases mem_setAddAll h4 with h5 | h5
  swap
  · exact mem_extractFromMailtoLinks h5
  rcases mem_setAddAll h5 with h6 | h6
  · simp at h6
  · exact mem_extractFromText h6

/-- Witness for the amended C3 at a concrete document. -/
theorem extractEmails_entries_normalized_valid_witness :
    (jstr "a@b.co") ∈ extractEmails
      { allText := [], mailtoHrefs := [jstr "mailto:a@b.co"],
        dataAttrValues := [], inputValues := [], metaContents := [],
        structuredBlobs := [] } ∧
      ∃ x, isValidEmail x = true ∧ jstr "a@b.co" = jsTrim (jsToLower x) :=
  ⟨by decide,
    @extractEmails_entries_normalized_valid
      ⟨[], [jstr "mailto:a@b.co"], [], [], [], []⟩ (jstr "a@b.co")
      (by decide)⟩

/-- Claim C9: every entry of the extraction pipeline's output is shorter
than 100 units, is none of the twelve exact placeholder addresses, and
contains none of the five deny-listed fragments (the fragment tests are
substring tests, not exact matches). -/
theorem extractEmails_deny_list {doc : DocumentView} {e : JStr}
    (h : e ∈ extractEmails doc) :
    e.length < 100 ∧ falsePositives.contains e = false ∧
      containsSub e (jstr "localhost") = false ∧
      containsSub e (jstr "127.0.0.1") = false ∧
      containsSub e (jstr "test.") = false ∧
      containsSub e (jstr "example.") = false ∧
      containsSub e (jstr "demo.") = false := by
  unfold extractEmails at h
  dsimp only at h
  rw [List.mem_filter] at h
  obtain ⟨_, hp⟩ := h
  unfold passesFinalFilter at hp
  simp only [Bool.and_eq_true, Bool.not_eq_true', decide_eq_true_eq] at hp
  obtain ⟨⟨⟨⟨⟨⟨h1, h2⟩, h3⟩, h4⟩, h5⟩, h6⟩, h7⟩ := hp
  exact ⟨h2, h1, h3, h4, h5, h6, h7⟩

/-- Witness for C9 at a concrete document. -/
theorem extractEmails_deny_list_witness :
    (jstr "a@b.co") ∈ extractEmails
      { allText := [], mailtoHrefs := [jstr "mailto:a@b.co"],
        dataAttrValues := [], inputValues := [], metaContents := [],
        structuredBlobs := [] } ∧
      ((jstr "a@b.co").length < 100 ∧
        falsePositives.contains (jstr "a@b.co") = false ∧
        containsSub (jstr "a@b.co") (jstr "localhost") = false ∧
        containsSub (jstr "a@b.co") (jstr "127.0.0.1") = false ∧
        containsSub (jstr "a@b.co") (jstr "test.") = false ∧
        containsSub (jstr "a@b.co") (jstr "example.") = false ∧
        containsSub (jstr "a@b.co") (jstr "demo.") = false) :=
  ⟨by decide,
    @extractEmails_deny_list
      ⟨[], [jstr "mailto:a@b.co"], [], [], [], []⟩ (jstr "a@b.co")
      (by decide)⟩

/-- Claim C8: the pipeline is total — a non-string text input yields an
empty list rather than an error, and a structured-data block whose text
is empty or whose JSON fails to parse is skipped without disturbing the
emails gathered from every other source or block: inserting such a block
anywhere leaves the result unchanged. -/
theorem extraction_error_isolation :
    (∀ (doc : DocumentView) (pre post : List (Option JsonV)),
      extractEmails (setBlobs doc (pre ++ none :: post)) =
        extractEmails (setBlobs doc (pre ++ post))) ∧
      extractFromTextVal TextVal.nonString = [] := by
  constructor
  · intro doc pre post
    have hsd : extractFromStructuredData (pre ++ none :: post) =
        extractFromStructuredData (pre ++ post) := by
      unfold extractFromStructuredData
      rw [List.flatMap_append, List.flatMap_append]
      simp
    unfold extractEmails setBlobs
    dsimp only
    rw [hsd]
  · rfl

/-- Witness for C8 at a concrete document with one malformed block
between two well-formed ones. -/
theorem extraction_error_isolation_witness :
    extractEmails (setBlobs
      { allText := [], mailtoHrefs := [], dataAttrValues := [],
        inputValues := [], metaContents := [], structuredBlobs := [] }
      ([some (JsonV.str (jstr "a@b.co"))] ++ none ::
        [some (JsonV.str (jstr "c@d.io"))])) =
      extractEmails (setBlobs
        { allText := [], mailtoHrefs := [], dataAttrValues := [],
          inputValues := [], metaContents := [], structuredBlobs := [] }
        ([some (JsonV.str (jstr "a@b.co"))] ++
          [some (JsonV.str (jstr "c@d.io"))])) ∧
      extractFromTextVal TextVal.nonString = [] :=
  ⟨extraction_error_isolation.1 _ _ _, extraction_error_isolation.2⟩

theorem findGt_none_iff {s : JStr} : findGt s = none ↔ hasGt s = false := by
  induction s with
  | nil => simp [findGt, hasGt]
  | cons c r ih =>
    unfold findGt
    by_cases hc : c = 62
    · subst hc
      simp [hasGt]
    · rw [if_neg hc]
      rw [ih]
      unfold hasGt
      rw [List.contains_cons]
      have : (62 == c) = false := by
        rw [beq_eq_false_iff_ne]
        exact fun h => hc h.symm
      rw [this]
      simp

theorem findGt_mem {s t : JStr} (h : findGt s = some t) :
    ∀ a ∈ t, a ∈ s := by
  induction s with
  | nil => simp [findGt] at h
  | cons c r ih =>
    unfold findGt at h
    by_cases hc : c = 62
    · rw [if_pos hc] at h
      injection h with h2
      subst h2
      exact fun a ha => List.mem_cons_of_mem c ha
    · rw [if_neg hc] at h
      exact fun a ha => List.mem_cons_of_mem c (ih h a ha)

theorem findGt_length {s t : JStr} (h : findGt s = some t) :
    t.length < s.length := by
  induction s with
  | nil => simp [findGt] at h
  | cons c r ih =>
    unfold findGt at h
    by_cases hc : c = 62
    · rw [if_pos hc] at h
      injection h with h2
      subst h2
      simp
    · rw [if_neg hc] at h
      have := ih h
      simp only [List.length_cons]
      omega

theorem stripTagsF_lt_some {fuel : Nat} {rest after : JStr}
    (h : findGt rest = some after) :
    stripTagsF (fuel + 1) (60 :: rest) = stripTagsF fuel after := by
  conv_lhs => unfold stripTagsF
  simp [h]

theorem stripTagsF_lt_none {fuel : Nat} {rest : JStr}
    (h : findGt rest = none) :
    stripTagsF (fuel + 1) (60 :: rest) = 60 :: stripTagsF fuel rest := by
  conv_lhs => unfold stripTagsF
  simp [h]

theorem stripTagsF_ne {fuel c : Nat} {rest : JStr} (hc : c ≠ 60) :
    stripTagsF (fuel + 1) (c :: rest) = c :: stripTagsF fuel rest := by
  conv_lhs => unfold stripTagsF
  simp [hc]

theorem mem_stripTagsF {fuel : Nat} {s : JStr} {a : Nat}
    (h : a ∈ stripTagsF fuel s) : a ∈ s := by
  induction fuel generalizing s with
  | zero => exact h
  | succ fuel ih =>
    cases s with
    | nil => exact h
    | cons c rest =>
      by_cases hc : c = 60
      · subst hc
        cases hgt : findGt rest with
        | some after =>
          rw [stripTagsF_lt_some hgt] at h
          exact List.mem_cons_of_mem 60 (findGt_mem hgt a (ih h))
        | none =>
          rw [stripTagsF_lt_none hgt] at h
          rw [List.mem_cons] at h
          cases h with
          | inl h2 => subst h2; exact List.mem_cons_self _ _
          | inr h2 => exact List.mem_cons_of_mem 60 (ih h2)
      · rw [stripTagsF_ne hc] at h
        rw [List.mem_cons] at h
        cases h with
        | inl h2 => subst h2; exact List.mem_cons_self _ _
        | inr h2 => exact List.mem_cons_of_mem c (ih h2)

theorem mem_stripTags {s : JStr} {a : Nat} (h : a ∈ stripTags s) : a ∈ s :=
  mem_stripTagsF h

theorem goodTail_of_noGt {s : JStr} (h : hasGt s = false) :
    goodTail s = true := by
  induction s with
  | nil => rfl
  | cons c r ih =>
    have hr : hasGt r = false := by
      unfold hasGt at h ⊢
      rw [List.contains_cons] at h
      rw [Bool.or_eq_false_iff] at h
      exact h.2
    unfold goodTail
    by_cases hc : c = 60
    · rw [if_pos hc, hr, ih hr]
      rfl
    · rw [if_neg hc]
      exact ih hr

theorem stripTagsF_id {fuel : Nat} {s : JStr} (hg : goodTail s = true)
    (hf : s.length ≤ fuel) : stripTagsF fuel s = s := by
  induction fuel generalizing s with
  | zero =>
    cases s with
    | nil => rfl
    | cons c r => simp at hf
  | succ fuel ih =>
    cases s with
    | nil => rfl
    | cons c rest =>
      rw [List.length_cons] at hf
      by_cases hc : c = 60
      · subst hc
        unfold goodTail at hg
        rw [if_pos rfl, Bool.and_eq_true] at hg
        have hng : hasGt rest = false := by
          cases hb : hasGt rest
          · rfl
          · rw [hb] at hg
            exact absurd hg.1 (by decide)
        rw [stripTagsF_lt_none (findGt_none_iff.mpr hng)]
        rw [ih hg.2 (by omega)]
      · rw [stripTagsF_ne hc]
        unfold goodTail at hg
        rw [if_neg hc] at hg
        rw [ih hg (by omega)]

theorem goodTail_stripTagsF {fuel : Nat} {s : JStr} (hf : s.length ≤ fuel) :
    goodTail (stripTagsF fuel s) = true := by
  induction fuel generalizing s with
  | zero =>
    cases s with
    | nil => rfl
    | cons c r => simp at hf
  | succ fuel ih =>
    cases s with
    | nil => rfl
    | cons c rest =>
      rw [List.length_cons] at hf
      by_cases hc : c = 60
      · subst hc
        cases hgt : findGt rest with
        | some after =>
          rw [stripTagsF_lt_some hgt]
          exact ih (by have := findGt_length hgt; omega)
        | none =>
          have hng : hasGt rest = false := findGt_none_iff.mp hgt
          rw [stripTagsF_lt_none hgt]
          rw [stripTagsF_id (goodTail_of_noGt hng) (by omega)]
          unfold goodTail
          rw [if_pos rfl, hng, goodTail_of_noGt hng]
          rfl
      · rw [stripTagsF_ne hc]
        unfold goodTail
        rw [if_neg hc]
        exact ih (by omega)

theorem hasGt_take {n : Nat} {s : JStr} (h : hasGt (s.take n) = true) :
    hasGt s = true := by
  unfold hasGt at h ⊢
  simp only [List.contains_eq_any_beq, List.any_eq_true] at h ⊢
  obtain ⟨x, hx, hbx⟩ := h
  exact ⟨x, List.mem_of_mem_take hx, hbx⟩

theorem goodTail_take {s : JStr} (hg : goodTail s = true) (n : Nat) :
    goodTail (s.take n) = true := by
  induction s generalizing n with
  | nil =>
    rw [List.take_nil]
    rfl
  | cons c r ih =>
    cases n with
    | zero => rfl
    | succ n =>
      rw [List.take_succ_cons]
      unfold goodTail at hg ⊢
      by_cases hc : c = 60
      · rw [if_pos hc] at hg ⊢
        rw [Bool.and_eq_true] at hg
        have h1 : hasGt (r.take n) = false := by
          cases hb : hasGt (r.take n)
          · rfl
          · have := hasGt_take hb
            rw [this] at hg
            exact absurd hg.1 (by decide)
        rw [h1, ih hg.2 n]
        rfl
      · rw [if_neg hc] at hg ⊢
        exact ih hg n

theorem stripTags_of_take_stripTags {w : JStr} {n : Nat} :
    stripTags ((stripTags w).take n) = (stripTags w).take n := by
  have h1 : goodTail (stripTags w) = true := goodTail_stripTagsF le_rfl
  have h2 : goodTail ((stripTags w).take n) = true := goodTail_take h1 n
  exact stripTagsF_id h2 le_rfl

theorem idxOf?_decomp {c : Nat} {s : JStr} {i : Nat}
    (h : idxOf? c s = some i) : s = s.take i ++ c :: s.drop (i + 1) := by
  induction s generalizing i with
  | nil => simp [idxOf?] at h
  | cons a r ih =>
    unfold idxOf? at h
    by_cases hac : (a == c) = true
    · rw [if_pos hac] at h
      injection h with h2
      subst h2
      rw [beq_iff_eq] at hac
      subst hac
      simp
    · rw [if_neg hac] at h
      cases hr : idxOf? c r with
      | none =>
        rw [hr] at h
        simp at h
      | some j =>
        rw [hr] at h
        rw [show (some j).map (fun x => x + 1) = some (j + 1) from rfl] at h
        injection h with h2
        subst h2
        rw [List.take_succ_cons, List.drop_succ_cons]
        show a :: r = a :: (r.take j ++ c :: r.drop (j + 1))
        rw [← ih hr]

theorem popupValid_no_ws {e : JStr} (h : popupIsValidEmail e = true) :
    ∀ a ∈ e, jsIsWs a = false := by
  unfold popupIsValidEmail at h
  cases hi : idxOf? 64 e with
  | none =>
    rw [hi] at h
    simp at h
  | some i =>
    rw [hi] at h
    dsimp only at h
    simp only [Bool.and_eq_true] at h
    obtain ⟨⟨⟨hne, hL⟩, hD⟩, hdot⟩ := h
    intro a ha
    rw [idxOf?_decomp hi] at ha
    rw [List.mem_append, List.mem_cons] at ha
    rcases ha with h1 | h1 | h1
    · have h2 := (List.all_eq_true.mp hL) a h1
      unfold okCharP at h2
      rw [Bool.and_eq_true] at h2
      cases hb : jsIsWs a
      · rfl
      · rw [hb] at h2
        exact absurd h2.1 (by decide)
    · subst h1
      decide
    · have h2 := (List.all_eq_true.mp hD) a h1
      unfold okCharP at h2
      rw [Bool.and_eq_true] at h2
      cases hb : jsIsWs a
      · rfl
      · rw [hb] at h2
        exact absurd h2.1 (by decide)

theorem mem_dedupAcc {l : List JStr} :
    ∀ {seen : List JStr} {a : JStr}, a ∈ dedupAcc seen l → a ∈ l := by
  induction l with
  | nil =>
    intro seen a h
    exact absurd h (by simp [dedupAcc])
  | cons x r ih =>
    intro seen a h
    unfold dedupAcc at h
    by_cases hc : seen.contains x = true
    · rw [if_pos hc] at h
      exact List.mem_cons_of_mem x (ih h)
    · rw [if_neg hc] at h
      rw [List.mem_cons] at h
      cases h with
      | inl h2 =>
        subst h2
        exact List.mem_cons_self _ _
      | inr h2 => exact List.mem_cons_of_mem x (ih h2)

theorem dedupAcc_not_seen {l : List JStr} :
    ∀ {seen : List JStr} {a : JStr}, a ∈ dedupAcc seen l → a ∉ seen := by
  induction l with
  | nil =>
    intro seen a h
    exact absurd h (by simp [dedupAcc])
  | cons x r ih =>
    intro seen a h
    unfold dedupAcc at h
    by_cases hc : seen.contains x = true
    · rw [if_pos hc] at h
      exact ih h
    · rw [if_neg hc] at h
      rw [List.mem_cons] at h
      cases h with
      | inl h2 =>
        subst h2
        intro hmem
        have hca : seen.contains a = true := by simpa using hmem
        rw [hca] at hc
        exact hc rfl
      | inr h2 =>
        intro hmem
        exact ih h2 (List.mem_append.mpr (Or.inl hmem))

theorem dedupAcc_nodup (l : List JStr) :
    ∀ seen, (dedupAcc seen l).Nodup := by
  induction l with
  | nil =>
    intro seen
    exact List.nodup_nil
  | cons x r ih =>
    intro seen
    unfold dedupAcc
    by_cases hc : seen.contains x = true
    · rw [if_pos hc]
      exact ih seen
    · rw [if_neg hc]
      refine List.Nodup.cons ?_ (ih (seen ++ [x]))
      intro hmem
      exact dedupAcc_not_seen hmem
        (List.mem_append.mpr (Or.inr (List.mem_singleton.mpr rfl)))

theorem dedupAcc_eq_self :
    ∀ {l seen : List JStr}, l.Nodup → (∀ a ∈ l, a ∉ seen) →
      dedupAcc seen l = l := by
  intro l
  induction l with
  | nil =>
    intro seen _ _
    rfl
  | cons x r ih =>
    intro seen hnd hdis
    rw [List.nodup_cons] at hnd
    unfold dedupAcc
    have hcx : seen.contains x = false := by
      cases hb : seen.contains x
      · rfl
      · have hx : x ∈ seen := by simpa using hb
        exact absurd hx (hdis x (List.mem_cons_self _ _))
    rw [hcx]
    simp only [Bool.false_eq_true, if_false]
    rw [ih hnd.2 ?_]
    intro a ha
    rw [List.mem_append]
    rintro (h1 | h1)
    · exact hdis a (List.mem_cons_of_mem x ha) h1
    · rw [List.mem_singleton] at h1
      subst h1
      exact hnd.1 ha

theorem map_eq_self_of_fixed {f : JStr → JStr} {l : List JStr}
    (h : ∀ a ∈ l, f a = a) : l.map f = l := by
  induction l with
  | nil => rfl
  | cons x r ih =>
    rw [List.map_cons, h x (List.mem_cons_self _ _),
      ih (fun a ha => h a (List.mem_cons_of_mem x ha))]

theorem mem_removeDuplicates {l : List JStr} {e : JStr}
    (h : e ∈ removeDuplicates l) : ∃ y ∈ l, e = jsToLower y := by
  unfold removeDuplicates at h
  have h2 := mem_dedupAcc h
  rw [List.mem_map] at h2
  obtain ⟨y, hy, hye⟩ := h2
  exact ⟨y, hy, hye.symm⟩

theorem removeDuplicates_nodup (l : List JStr) :
    (removeDuplicates l).Nodup := dedupAcc_nodup _ []

theorem removeDuplicates_eq_self {l : List JStr} (hnd : l.Nodup)
    (hf : ∀ e ∈ l, jsToLower e = e) : removeDuplicates l = l := by
  unfold removeDuplicates
  rw [map_eq_self_of_fixed hf]
  exact dedupAcc_eq_self hnd (by simp)

theorem mem_sanitizeClean {l : List JStr} {e : JStr}
    (h : e ∈ sanitizeClean l) :
    (decide (e.length > 0) && decide (e.length ≤ 254) &&
      !isSuspicious4 e && popupIsValidEmail e) = true ∧
      ∃ y, e = (stripTags (jsToLower (jsTrim y))).take 254 := by
  unfold sanitizeClean at h
  rw [List.mem_filter] at h
  obtain ⟨hm, hP⟩ := h
  rw [List.mem_map] at hm
  obtain ⟨y, _, hy⟩ := hm
  exact ⟨hP, y, hy.symm⟩

theorem sanitizeClean_elem_fixed {l : List JStr} {e : JStr}
    (h : e ∈ sanitizeClean l) :
    jsToLower e = e ∧ jsTrim e = e ∧ stripTags e = e ∧ e.take 254 = e ∧
      (decide (e.length > 0) && decide (e.length ≤ 254) &&
        !isSuspicious4 e && popupIsValidEmail e) = true := by
  obtain ⟨hP, y, hy⟩ := mem_sanitizeClean h
  have hlow : jsToLower e = e := by
    apply jsToLower_eq_self
    intro a ha
    rw [hy] at ha
    exact mem_jsToLower_fixed (mem_stripTags (List.mem_of_mem_take ha))
  have hPs := hP
  simp only [Bool.and_eq_true, decide_eq_true_eq] at hPs
  have hvalid : popupIsValidEmail e = true := hPs.2
  have hlen254 : e.length ≤ 254 := hPs.1.1.2
  have htrim : jsTrim e = e := jsTrim_eq_self (popupValid_no_ws hvalid)
  have hstrip : stripTags e = e := by
    rw [hy]
    exact stripTags_of_take_stripTags
  have htake : e.take 254 = e := List.take_of_length_le hlen254
  exact ⟨hlow, htrim, hstrip, htake, hP⟩

theorem sanitizeClean_eq_self {out : List JStr}
    (h : ∀ e ∈ out, jsToLower e = e ∧ jsTrim e = e ∧ stripTags e = e ∧
      e.take 254 = e ∧
      (decide (e.length > 0) && decide (e.length ≤ 254) &&
        !isSuspicious4 e && popupIsValidEmail e) = true) :
    sanitizeClean out = out := by
  unfold sanitizeClean
  have h1 : out.filter (fun e => !e.isEmpty) = out := by
    rw [List.filter_eq_self]
    intro a ha
    have hP := (h a ha).2.2.2.2
    simp only [Bool.and_eq_true, decide_eq_true_eq] at hP
    have hlen : 0 < a.length := hP.1.1.1
    cases a with
    | nil => simp at hlen
    | cons x r => rfl
  rw [h1]
  have h2 : out.map
      (fun e => (stripTags (jsToLower (jsTrim e))).take 254) = out := by
    apply map_eq_self_of_fixed
    intro a ha
    obtain ⟨hl, ht, hs, htk, _⟩ := h a ha
    rw [ht, hl, hs, htk]
  rw [h2]
  rw [List.filter_eq_self]
  intro a ha
  exact (h a ha).2.2.2.2

theorem nodup_fixed_pairwise {l : List JStr}
    (hf : ∀ a ∈ l, jsToLower a = a) (hnd : l.Nodup) :
    List.Pairwise (fun a b => jsToLower a ≠ jsToLower b) l := by
  induction l with
  | nil => exact List.Pairwise.nil
  | cons x r ih =>
    rw [List.nodup_cons] at hnd
    rw [List.pairwise_cons]
    constructor
    · intro b hb hcon
      rw [hf x (List.mem_cons_self _ _),
        hf b (List.mem_cons_of_mem x hb)] at hcon
      exact hnd.1 (hcon ▸ hb)
    · exact ih (fun a ha => hf a (List.mem_cons_of_mem x ha)) hnd.2

/-- Claim C2: with the default removeDuplicates setting, no two entries
of the finalized output are equal case-insensitively, and finalizing the
output again returns it unchanged. -/
theorem sanitize_pairwise_and_idempotent (l : List JStr) :
    List.Pairwise (fun a b => jsToLower a ≠ jsToLower b)
        (sanitizeEmails l true) ∧
      sanitizeEmails (sanitizeEmails l true) true =
        sanitizeEmails l true := by
  have hout_elem : ∀ e ∈ sanitizeEmails l true, e ∈ sanitizeClean l := by
    intro e he
    unfold sanitizeEmails at he
    rw [if_pos rfl] at he
    have h2 := List.mem_of_mem_take he
    obtain ⟨y, hy, hey⟩ := mem_removeDuplicates h2
    have hfix := (sanitizeClean_elem_fixed hy).1
    rw [hey, hfix]
    exact hy
  have hnodup : (sanitizeEmails l true).Nodup := by
    unfold sanitizeEmails
    rw [if_pos rfl]
    exact (List.take_sublist _ _).nodup (removeDuplicates_nodup _)
  have hfix : ∀ a ∈ sanitizeEmails l true, jsToLower a = a :=
    fun a ha => (sanitizeClean_elem_fixed (hout_elem a ha)).1
  constructor
  · exact nodup_fixed_pairwise hfix hnodup
  · have h1 : sanitizeClean (sanitizeEmails l true) = sanitizeEmails l true :=
      sanitizeClean_eq_self
        (fun e he => sanitizeClean_elem_fixed (hout_elem e he))
    have h2 : removeDuplicates (sanitizeEmails l true) =
        sanitizeEmails l true :=
      removeDuplicates_eq_self hnodup hfix
    have h3 : (sanitizeEmails l true).length ≤ 1000 := by
      unfold sanitizeEmails
      rw [if_pos rfl]
      exact List.length_take_le _ _
    rw [show sanitizeEmails (sanitizeEmails l true) true =
        (removeDuplicates (sanitizeClean (sanitizeEmails l true))).take 1000
      from rfl]
    rw [h1, h2]
    exact List.take_of_length_le h3

/-- Claim C1: the content-script pipeline caps its result at 500 entries
and keeps the earliest-discovered ones (the cap is a prefix of the
uncapped list, silently, not an error), and the popup-side sanitizer
caps every result at the hard ceiling of 1000 entries in either
duplicate-removal configuration. -/
theorem result_caps (l : List JStr) (b : Bool) :
    (limitResults l).length ≤ 500 ∧ limitResults l <+: l ∧
      (sanitizeEmails l b).length ≤ 1000 := by
  refine ⟨?_, ?_, ?_⟩
  · unfold limitResults
    by_cases hc : decide (l.length > 500) = true
    · rw [if_pos hc]
      exact List.length_take_le _ _
    · rw [if_neg hc]
      rw [decide_eq_true_eq] at hc
      omega
  · unfold limitResults
    by_cases hc : decide (l.length > 500) = true
    · rw [if_pos hc]
      exact List.take_prefix _ _
    · rw [if_neg hc]
  · unfold sanitizeEmails
    exact List.length_take_le _ _

end EmailScraper
